import Mathlib

set_option maxRecDepth 10000

/-!
Shallow embedding of the GLSL cross-API source preprocessor
(`blender::gpu::shader::Preprocessor` from
`source/blender/gpu/glsl_preprocess/glsl_preprocess.hh`).

Text is modelled as `List Char`.  Every pass of the pipeline is translated
from the C++ source: the two comment-masking scan loops, the trailing-space
collapse (`std::regex_replace` of `(\ )*?\n` by `\n`), the `shared`
declaration collector, the two linters, the three mutating regex passes and
the codegen suffix.  The handwritten matchers implement the exact
ECMAScript regexes of the source (ordered alternation, greedy quantifiers
with backtracking) specialised to those fixed patterns.

Loops that are not structurally recursive are written with an explicit
fuel parameter; the public wrappers supply `length + 1` fuel, and the
totality theorem for claim C10 proves (via an `Option`-valued mirror that
fails on fuel exhaustion) that this fuel is never exhausted, i.e. that the
fallback branches are dead code.
-/

namespace GlslPre

/-- ECMAScript `\s` on the ASCII range (space, tab, LF, VT, FF, CR). -/
def isWsC (c : Char) : Bool :=
  c = ' ' || c = '\t' || c = '\n' || c = Char.ofNat 11 || c = Char.ofNat 12 || c = '\r'

/-- ECMAScript `\d`. -/
def isDigitC (c : Char) : Bool := c.isDigit

/-- ECMAScript `\w` (`[A-Za-z0-9_]`). -/
def isWordC (c : Char) : Bool := c.isAlphanum || c = '_'

/-- Character class `[^,\s\d]` of the matrix-constructor lint regex. -/
def isMatArgC (c : Char) : Bool := !(c = ',' || isWsC c || isDigitC c)

/-- `std::string::find(pat, 0)` : index of the leftmost occurrence of `pat`. -/
def findSub (pat : List Char) : List Char → Option Nat
  | [] => if pat = [] then some 0 else none
  | c :: r =>
    if pat.isPrefixOf (c :: r) then some 0
    else
      match findSub pat r with
      | some j => some (j + 1)
      | none => none

/-- `std::string::find(pat, i)` : leftmost occurrence of `pat` at index `≥ i`. -/
def findFrom (pat l : List Char) (i : Nat) : Option Nat :=
  match findSub pat (l.drop i) with
  | some j => some (j + i)
  | none => none

/-- In-place masking of `[a, b)` by spaces, keeping newlines
(the inner loop of the multi-line comment scan). -/
def maskRangeKeepNL : List Char → Nat → Nat → List Char
  | [], _, _ => []
  | c :: r, a, b =>
    (if a = 0 ∧ 0 < b ∧ c ≠ '\n' then ' ' else c) :: maskRangeKeepNL r (a - 1) (b - 1)

/-- In-place masking of `[a, b)` by spaces, unconditional
(the inner loop of the single-line comment scan). -/
def maskRangeAll : List Char → Nat → Nat → List Char
  | [], _, _ => []
  | c :: r, a, b =>
    (if a = 0 ∧ 0 < b then ' ' else c) :: maskRangeAll r (a - 1) (b - 1)

/-- The multi-line comment scan loop of `remove_comments`: repeatedly find
`/*`, find the following `*/`, and blank the range keeping newlines.
Returns the masked text and whether a malformed (unterminated) block
comment was found.  Fueled; callers pass `length + 1`. -/
def maskMultiF : Nat → List Char → Nat → List Char × Bool
  | 0, l, _ => (l, false)
  | n + 1, l, endPos =>
    match findFrom ['/', '*'] l endPos with
    | none => (l, false)
    | some start =>
      match findFrom ['*', '/'] l (start + 2) with
      | none => (l, true)
      | some e => maskMultiF n (maskRangeKeepNL l start (e + 2)) e

/-- The single-line comment scan loop of `remove_comments`: repeatedly find
`//`, find the following newline, and blank `[start, newline)`.
Returns the masked text and whether a line comment without a trailing
newline was found. -/
def maskSingleF : Nat → List Char → Nat → List Char × Bool
  | 0, l, _ => (l, false)
  | n + 1, l, endPos =>
    match findFrom ['/', '/'] l endPos with
    | none => (l, false)
    | some start =>
      match findFrom ['\n'] l (start + 2) with
      | none => (l, true)
      | some e => maskSingleF n (maskRangeAll l start e) e

/-- One match attempt of the lazy regex `(\ )*?\n` at the head of the text:
consume spaces up to a newline, returning the remaining suffix. -/
def spacesNewline : List Char → Option (List Char)
  | [] => none
  | c :: r => if c = '\n' then some r else if c = ' ' then spacesNewline r else none

/-- `std::regex_replace(out_str, regex("(\\ )*?\\n"), "\n")` : delete runs
of spaces that sit immediately before a newline. -/
def collapseF : Nat → List Char → List Char
  | 0, l => l
  | n + 1, l =>
    match l with
    | [] => []
    | c :: r =>
      match spacesNewline (c :: r) with
      | some r' => '\n' :: collapseF n r'
      | none => c :: collapseF n r

/-- A diagnostic as delivered to the `report_error` callback:
`(str, match, msg)` — the current text, the matched substring
(empty for the `smatch()` of `remove_comments`), and the message. -/
structure Diag where
  ctx : List Char
  matched : List Char
  msg : String
deriving DecidableEq, Repr

def msgMulti : String := "Malformed multi-line comment."
def msgSingle : String := "Malformed single line comment, missing newline."
def msgMat : String :=
  "Matrix constructor is not cross API compatible. Use to_floatNxM to reshape the matrix or use other constructors instead."
def msgArr : String :=
  "Array constructor is not cross API compatible. Use type_array instead of type[]."

/-- `Preprocessor::remove_comments`: mask multi-line comments, then
single-line comments, then collapse trailing spaces; on a malformed
comment, report on the original input and return the partially masked
text early. -/
def remove_comments (l : List Char) : List Char × List Diag :=
  let m1 := maskMultiF (l.length + 1) l 0
  if m1.2 then (m1.1, [⟨l, [], msgMulti⟩])
  else
    let m2 := maskSingleF (m1.1.length + 1) m1.1 0
    if m2.2 then (m2.1, [⟨l, [], msgSingle⟩])
    else (collapseF (m2.1.length + 1) m2.1, [])

/-- The text of `remove_comments` just before the trailing-space collapse:
comment bodies blanked in place, everything else (and all newlines) kept at
the same index.  A character of the input is "not part of a comment"
exactly when it survives this masking unchanged. -/
def commentMasked (l : List Char) : List Char :=
  let m1 := maskMultiF (l.length + 1) l 0
  if m1.2 then m1.1 else (maskSingleF (m1.1.length + 1) m1.1 0).1

/-- Matcher of `#\s*(include|pragma once)` at the head of the text,
returning the replacement `//$1` and the suffix after the match. -/
def matchDirAt : List Char → Option (List Char × List Char)
  | '#' :: r =>
    let r' := r.dropWhile isWsC
    if ['i', 'n', 'c', 'l', 'u', 'd', 'e'].isPrefixOf r' then
      some (('/' :: '/' :: ['i', 'n', 'c', 'l', 'u', 'd', 'e']), r'.drop 7)
    else if ['p', 'r', 'a', 'g', 'm', 'a', ' ', 'o', 'n', 'c', 'e'].isPrefixOf r' then
      some (('/' :: '/' :: ['p', 'r', 'a', 'g', 'm', 'a', ' ', 'o', 'n', 'c', 'e']), r'.drop 11)
    else none
  | _ => none

/-- Consume one expected literal character. -/
def expectChar (c : Char) : List Char → Option (List Char)
  | x :: r => if x = c then some r else none
  | [] => none

/-- Consume an expected literal pattern (a regex literal). -/
def expectPfx (p l : List Char) : Option (List Char) :=
  if p.isPrefixOf l then some (l.drop p.length) else none

/-- Consume `\s+` (greedy; all our regexes follow it with a non-`\s`
character, so maximal munch is exact). -/
def wsPlus (l : List Char) : Option (List Char) :=
  if l.takeWhile isWsC = [] then none else some (l.dropWhile isWsC)

/-- Consume `(\w+)` (greedy; all our regexes follow it with a non-`\w`
pattern, so maximal munch is exact), returning the capture. -/
def wordPlus (l : List Char) : Option (List Char × List Char) :=
  if l.takeWhile isWordC = [] then none
  else some (l.takeWhile isWordC, l.dropWhile isWordC)

/-- Continuation `\s+(\w+)\s+(\w+)` shared by the qualifier decorations:
returns the two captured words and the suffix after the match. -/
def wsWordWsWord (r : List Char) : Option (List Char × List Char × List Char) := do
  let r1 ← wsPlus r
  let (ty, r2) ← wordPlus r1
  let r3 ← wsPlus r2
  let (nm, r4) ← wordPlus r3
  some (ty, nm, r4)

/-- Try one qualifier alternative of `(out|inout|in|shared)\s+(\w+)\s+(\w+)`. -/
def tryQual (q l : List Char) : Option (List Char × List Char × List Char) :=
  if q.isPrefixOf l then wsWordWsWord (l.drop q.length) else none

/-- The replacement `$1 $2 _$1_sta $3 _$1_end` of the decorator pass. -/
def decoRep (q ty nm : List Char) : List Char :=
  q ++ [' '] ++ ty ++ [' ', '_'] ++ q ++ ['_', 's', 't', 'a', ' '] ++ nm ++
    [' ', '_'] ++ q ++ ['_', 'e', 'n', 'd']

/-- One qualifier alternative packaged as `(replacement, suffix)`. -/
def decoAlt (q l : List Char) : Option (List Char × List Char) :=
  (tryQual q l).map fun p => (decoRep q p.1 p.2.1, p.2.2)

/-- Matcher of `(out|inout|in|shared)\s+(\w+)\s+(\w+)` at the head of the
text (alternatives tried in the regex's order), returning the replacement
and the suffix after the match. -/
def matchDecoAt (l : List Char) : Option (List Char × List Char) :=
  decoAlt ['o', 'u', 't'] l <|>
    (decoAlt ['i', 'n', 'o', 'u', 't'] l <|>
      (decoAlt ['i', 'n'] l <|> decoAlt ['s', 'h', 'a', 'r', 'e', 'd'] l))

/-- Matcher of `=\s*(\w+)\s*\[[^\]]*\]\s*\(` at the head of the text,
returning the captured type and the suffix after the match (shared by the
array-constructor linter and rewriter). -/
def matchArrAt (l : List Char) : Option (List Char × List Char) := do
  let r ← expectChar '=' l
  let (ty, r2) ← wordPlus (r.dropWhile isWsC)
  let r4 ← expectChar '[' (r2.dropWhile isWsC)
  let r6 ← expectChar ']' (r4.dropWhile (fun c => c ≠ ']'))
  let rest ← expectChar '(' (r6.dropWhile isWsC)
  some (ty, rest)

/-- One shared variable declaration `{type, name, array-suffix}`
(`Preprocessor::SharedVar`). -/
structure SharedVar where
  type : List Char
  name : List Char
  array : List Char
deriving DecidableEq, Repr

/-- Matcher of `shared\s+(\w+)\s+(\w+)([^;]*);` at the head of the text
(`[^;]*` greedily runs to the first `;`, captured verbatim). -/
def matchSharedAt (l : List Char) : Option (SharedVar × List Char) := do
  let r ← expectPfx ['s', 'h', 'a', 'r', 'e', 'd'] l
  let (ty, nm, r5) ← wsWordWsWord r
  let rest ← expectChar ';' (r5.dropWhile (fun c => c ≠ ';'))
  some (⟨ty, nm, r5.takeWhile (fun c => c ≠ ';')⟩, rest)

/-- Greatest index of `')'` in a list (the greedy backtracking target of
`[^,\s\d]+\)`). -/
def lastClose : List Char → Option Nat
  | [] => none
  | c :: r =>
    match lastClose r with
    | some j => some (j + 1)
    | none => if c = ')' then some 0 else none

/-- Greedy-with-backtracking target of `[^,\s\d]+\)`: the largest `j ≥ 1`
such that the `j` characters before position `j` lie in the class and the
character at `j` is `)` (the class contains `)`, so `j` is the index of
the last `)` of the maximal class run). -/
def closeIdx (r : List Char) : Option Nat := do
  let j ← lastClose (r.takeWhile isMatArgC)
  if 1 ≤ j then some j else none

/-- Matcher of `\([^,\s\d]+\)` at the head of the text: an opening paren,
then (greedily, with backtracking to the last viable `)`) at least one
character outside `[,\s\d]`, then a closing paren. -/
def parenArg (t : List Char) : Option (List Char) := do
  let r ← expectChar '(' t
  let j ← closeIdx r
  some (r.drop (j + 1))

/-- Consume one `\d`. -/
def digitStep : List Char → Option (List Char)
  | d :: r => if isDigitC d then some r else none
  | [] => none

/-- Alternation `(\d|\dx\d)` (tried in the regex's order, with
backtracking) followed by `\([^,\s\d]+\)`, for the `mat` alternative. -/
def matNum (t : List Char) : Option (List Char) := do
  let r1 ← digitStep t
  parenArg r1 <|>
    (do
      let r2 ← expectChar 'x' r1
      let r3 ← digitStep r2
      parenArg r3)

/-- Pattern `\dx\d` followed by `\([^,\s\d]+\)`, for the `float`
alternative. -/
def floatNum (t : List Char) : Option (List Char) := do
  let r1 ← digitStep t
  let r2 ← expectChar 'x' r1
  let r3 ← digitStep r2
  parenArg r3

/-- Matcher of `\s+(mat(\d|\dx\d)|float\dx\d)\([^,\s\d]+\)` at the head of
the text, returning the suffix after the match. -/
def matchMatAt (l : List Char) : Option (List Char) :=
  match l with
  | c :: r =>
    if isWsC c then
      if ['m', 'a', 't'].isPrefixOf (r.dropWhile isWsC) then
        matNum ((r.dropWhile isWsC).drop 3)
      else if ['f', 'l', 'o', 'a', 't'].isPrefixOf (r.dropWhile isWsC) then
        floatNum ((r.dropWhile isWsC).drop 5)
      else none
    else none
  | [] => none

/-- `std::regex_search` : leftmost position (with the matcher's payload)
where the matcher succeeds. -/
def searchM {α : Type} (m : List Char → Option α) : List Char → Option (Nat × α)
  | [] => (m []).map fun a => (0, a)
  | c :: r =>
    match m (c :: r) with
    | some a => some (0, a)
    | none => (searchM m r).map fun pa => (pa.1 + 1, pa.2)

/-- `std::regex_replace` for a matcher returning `(replacement, suffix)`:
copy until a match, emit the replacement, continue after the match. -/
def replaceAllF (m : List Char → Option (List Char × List Char)) :
    Nat → List Char → List Char
  | 0, l => l
  | _ + 1, [] => []
  | n + 1, c :: r =>
    match m (c :: r) with
    | some (rep, rest) => rep ++ replaceAllF m n rest
    | none => c :: replaceAllF m n r

/-- `Preprocessor::preprocessor_directive_mutation`
(`#include` / `#pragma once` → `//…`). -/
def preprocessor_directive_mutation (l : List Char) : List Char :=
  replaceAllF matchDirAt (l.length + 1) l

/-- `Preprocessor::argument_decorator_macro_injection`. -/
def argument_decorator_macro_injection (l : List Char) : List Char :=
  replaceAllF matchDecoAt (l.length + 1) l

/-- The replacement `= ARRAY_T($1) ARRAY_V(` of the array-constructor pass. -/
def arrRep (ty : List Char) : List Char :=
  ['=', ' ', 'A', 'R', 'R', 'A', 'Y', '_', 'T', '('] ++ ty ++
    [')', ' ', 'A', 'R', 'R', 'A', 'Y', '_', 'V', '(']

/-- `matchArrAt` packaged as a replacing matcher. -/
def matchArrRepAt (l : List Char) : Option (List Char × List Char) :=
  (matchArrAt l).map fun p => (arrRep p.1, p.2)

/-- `Preprocessor::array_constructor_macro_injection`. -/
def array_constructor_macro_injection (l : List Char) : List Char :=
  replaceAllF matchArrRepAt (l.length + 1) l

/-- The collector loop of `Preprocessor::threadgroup_variable_parsing`:
`regex_search` repeatedly, pushing each captured declaration, continuing on
`match.suffix()`. -/
def tgF : Nat → List Char → List SharedVar
  | 0, _ => []
  | n + 1, l =>
    match searchM matchSharedAt l with
    | none => []
    | some (_, v, rest) => v :: tgF n rest

/-- `Preprocessor::threadgroup_variable_parsing` (the declarations appended
by one call, in source order). -/
def threadgroup_variable_parsing (l : List Char) : List SharedVar :=
  tgF (l.length + 1) l

/-- The matched substring of a search hit: the text between position `p`
and the returned suffix `rest`. -/
def matchedOf (l : List Char) (p : Nat) (rest : List Char) : List Char :=
  (l.drop p).take ((l.drop p).length - rest.length)

/-- The reporting loop of `Preprocessor::matrix_constructor_linting`:
each hit reports `(str, match, msg)` where `str` is the text being
searched at that moment (the suffix of the previous match from the second
hit on). -/
def matLintF : Nat → List Char → List Diag
  | 0, _ => []
  | n + 1, l =>
    match searchM matchMatAt l with
    | none => []
    | some (p, rest) => ⟨l, matchedOf l p rest, msgMat⟩ :: matLintF n rest

/-- `Preprocessor::matrix_constructor_linting`. -/
def matrix_constructor_linting (l : List Char) : List Diag :=
  matLintF (l.length + 1) l

/-- The reporting loop of `Preprocessor::array_constructor_linting`. -/
def arrLintF : Nat → List Char → List Diag
  | 0, _ => []
  | n + 1, l =>
    match searchM matchArrAt l with
    | none => []
    | some (p, _, rest) => ⟨l, matchedOf l p rest, msgArr⟩ :: arrLintF n rest

/-- `Preprocessor::array_constructor_linting`. -/
def array_constructor_linting (l : List Char) : List Diag :=
  arrLintF (l.length + 1) l

/-- `args` line payload of `Preprocessor::suffix` (`first`-separator
convention of the C++ loop: a space before the first entry, commas after). -/
def sharedArgs : Bool → List SharedVar → List Char
  | _, [] => []
  | first, v :: vs =>
    (if first then [' '] else [',']) ++
      (['t', 'h', 'r', 'e', 'a', 'd', 'g', 'r', 'o', 'u', 'p', ' '] ++ v.type ++
        ['(', '&', '_'] ++ v.name ++ [')'] ++ v.array) ++ sharedArgs false vs

/-- `assign` line payload of `Preprocessor::suffix`. -/
def sharedAssign : Bool → List SharedVar → List Char
  | _, [] => []
  | first, v :: vs =>
    (if first then [':'] else [',']) ++
      (v.name ++ ['(', '_'] ++ v.name ++ [')']) ++ sharedAssign false vs

/-- `declare` line payload of `Preprocessor::suffix`. -/
def sharedDeclare : List SharedVar → List Char
  | [] => []
  | v :: vs =>
    ['t', 'h', 'r', 'e', 'a', 'd', 'g', 'r', 'o', 'u', 'p', ' '] ++ v.type ++ [' '] ++
      v.name ++ v.array ++ [';'] ++ sharedDeclare vs

/-- `pass` line payload of `Preprocessor::suffix`. -/
def sharedPass : Bool → List SharedVar → List Char
  | _, [] => []
  | first, v :: vs => (if first then [' '] else [',']) ++ v.name ++ sharedPass false vs

/-- `Preprocessor::suffix`: empty when no shared variables were collected,
otherwise the four `#undef` lines and the four macro definitions. -/
def suffixGen (vars : List SharedVar) : List Char :=
  if vars = [] then []
  else
    ("#undef MSL_SHARED_VARS_ARGS\n".data ++
     "#undef MSL_SHARED_VARS_ASSIGN\n".data ++
     "#undef MSL_SHARED_VARS_DECLARE\n".data ++
     "#undef MSL_SHARED_VARS_PASS\n".data ++
     "#define MSL_SHARED_VARS_ARGS ".data ++ sharedArgs true vars ++ ['\n'] ++
     "#define MSL_SHARED_VARS_ASSIGN ".data ++ sharedAssign true vars ++ ['\n'] ++
     "#define MSL_SHARED_VARS_DECLARE ".data ++ sharedDeclare vars ++ ['\n'] ++
     "#define MSL_SHARED_VARS_PASS (".data ++ sharedPass true vars ++ [')', '\n'])

/-- `Preprocessor::process` (full entry point).  The three boolean flags
mirror the unnamed `do_linting` / `do_string_mutation` /
`do_include_mutation` parameters, which the C++ body never reads.  `st` is
the `shared_vars_` member at call time; the result carries the transformed
text, the diagnostics delivered to `report_error` in order, and the new
`shared_vars_` state. -/
def process (_do_linting _do_string_mutation _do_include_mutation : Bool)
    (s : List Char) (st : List SharedVar) :
    List Char × List Diag × List SharedVar :=
  let rc := remove_comments s
  let st' := st ++ threadgroup_variable_parsing rc.1
  let d2 := matrix_constructor_linting rc.1
  let d3 := array_constructor_linting rc.1
  let s2 := preprocessor_directive_mutation rc.1
  let s3 := argument_decorator_macro_injection s2
  let s4 := array_constructor_macro_injection s3
  (s4 ++ suffixGen st', rc.2 ++ d2 ++ d3, st')

/-- `Preprocessor::process(const std::string &)` (python-shader
convenience entry point): full call with `false` flags and a no-op
`report_error`; only the transformed text is observable. -/
def processConv (s : List Char) : List Char :=
  (process false false false s []).1

/-- Split a text into its lines (separator `'\n'`, not kept). -/
def splitLines : List Char → List (List Char)
  | [] => [[]]
  | c :: r =>
    match splitLines r with
    | ln :: lns => if c = '\n' then [] :: ln :: lns else (c :: ln) :: lns
    | [] => [[c]]

/-- Character of a text at line `li`, column `co` (both 0-based). -/
def getLC (t : List Char) (li co : Nat) : Option Char :=
  match (splitLines t)[li]? with
  | some ln => ln[co]?
  | none => none

/-- Declarations collected by one `process` call on input `s`
(the collector runs on the comment-stripped text). -/
def varsOf (s : List Char) : List SharedVar :=
  threadgroup_variable_parsing (remove_comments s).1

/-- Transformed text produced by the mutating passes alone (everything of
`process` except the codegen suffix). -/
def bodyOf (s : List Char) : List Char :=
  array_constructor_macro_injection
    (argument_decorator_macro_injection
      (preprocessor_directive_mutation (remove_comments s).1))

/-- No position of `t` matches the directive regex
`#\s*(include|pragma once)`. -/
def noMatchDir (t : List Char) : Prop := ∀ p : Nat, matchDirAt (t.drop p) = none

/-- Number of newline characters in a text. -/
def countNL : List Char → Nat
  | [] => 0
  | c :: r => (if c = '\n' then 1 else 0) + countNL r

/-- Remove the trailing run of spaces of a line (what the trailing-space
collapse does to every line before a newline). -/
def rts : List Char → List Char
  | [] => []
  | c :: r =>
    match rts r with
    | [] => if c = ' ' then [] else [c]
    | x :: xs => c :: x :: xs

/-- Mirror of `maskMultiF` that fails on fuel exhaustion. -/
def maskMultiO : Nat → List Char → Nat → Option (List Char × Bool)
  | 0, _, _ => none
  | n + 1, l, endPos =>
    match findFrom ['/', '*'] l endPos with
    | none => some (l, false)
    | some start =>
      match findFrom ['*', '/'] l (start + 2) with
      | none => some (l, true)
      | some e => maskMultiO n (maskRangeKeepNL l start (e + 2)) e

/-- Mirror of `maskSingleF` that fails on fuel exhaustion. -/
def maskSingleO : Nat → List Char → Nat → Option (List Char × Bool)
  | 0, _, _ => none
  | n + 1, l, endPos =>
    match findFrom ['/', '/'] l endPos with
    | none => some (l, false)
    | some start =>
      match findFrom ['\n'] l (start + 2) with
      | none => some (l, true)
      | some e => maskSingleO n (maskRangeAll l start e) e

/-- Mirror of `collapseF` that fails on fuel exhaustion. -/
def collapseO : Nat → List Char → Option (List Char)
  | 0, _ => none
  | _ + 1, [] => some []
  | n + 1, c :: r =>
    match spacesNewline (c :: r) with
    | some r' => (collapseO n r').map (fun t => '\n' :: t)
    | none => (collapseO n r).map (fun t => c :: t)

/-- Mirror of `replaceAllF` that fails on fuel exhaustion. -/
def replaceAllO (m : List Char → Option (List Char × List Char)) :
    Nat → List Char → Option (List Char)
  | 0, _ => none
  | _ + 1, [] => some []
  | n + 1, c :: r =>
    match m (c :: r) with
    | some (rep, rest) => (replaceAllO m n rest).map (fun t => rep ++ t)
    | none => (replaceAllO m n r).map (fun t => c :: t)

/-- Mirror of `tgF` that fails on fuel exhaustion. -/
def tgO : Nat → List Char → Option (List SharedVar)
  | 0, _ => none
  | n + 1, l =>
    match searchM matchSharedAt l with
    | none => some []
    | some (_, v, rest) => (tgO n rest).map (fun vs => v :: vs)

/-- Mirror of `matLintF` that fails on fuel exhaustion. -/
def matLintO : Nat → List Char → Option (List Diag)
  | 0, _ => none
  | n + 1, l =>
    match searchM matchMatAt l with
    | none => some []
    | some (p, rest) => (matLintO n rest).map (fun ds => ⟨l, matchedOf l p rest, msgMat⟩ :: ds)

/-- Mirror of `arrLintF` that fails on fuel exhaustion. -/
def arrLintO : Nat → List Char → Option (List Diag)
  | 0, _ => none
  | n + 1, l =>
    match searchM matchArrAt l with
    | none => some []
    | some (p, _, rest) => (arrLintO n rest).map (fun ds => ⟨l, matchedOf l p rest, msgArr⟩ :: ds)

/-- Mirror of `remove_comments` over the failing loop mirrors. -/
def remove_commentsO (l : List Char) : Option (List Char × List Diag) := do
  let m1 ← maskMultiO (l.length + 1) l 0
  if m1.2 then some (m1.1, [⟨l, [], msgMulti⟩])
  else do
    let m2 ← maskSingleO (m1.1.length + 1) m1.1 0
    if m2.2 then some (m2.1, [⟨l, [], msgSingle⟩])
    else do
      let cl ← collapseO (m2.1.length + 1) m2.1
      some (cl, [])

/-- Mirror of `process` over the failing loop mirrors: its success with the
same fuel budgets the real pipeline uses is exactly the statement that
every loop of `process` terminates within its fuel. -/
def processO (s : List Char) (st : List SharedVar) :
    Option (List Char × List Diag × List SharedVar) := do
  let rc ← remove_commentsO s
  let vars ← tgO (rc.1.length + 1) rc.1
  let d2 ← matLintO (rc.1.length + 1) rc.1
  let d3 ← arrLintO (rc.1.length + 1) rc.1
  let s2 ← replaceAllO matchDirAt (rc.1.length + 1) rc.1
  let s3 ← replaceAllO matchDecoAt (s2.length + 1) s2
  let s4 ← replaceAllO matchArrRepAt (s3.length + 1) s3
  some (s4 ++ suffixGen (st ++ vars), rc.2 ++ d2 ++ d3, st ++ vars)

section Lemmas

/-- Appending declaration lists concatenates the `ARGS` payloads
(comma-separated mode). -/
theorem sharedArgs_append_false (u w : List SharedVar) :
    sharedArgs false (u ++ w) = sharedArgs false u ++ sharedArgs false w := by
  induction u with
  | nil => simp [sharedArgs]
  | cons v u' ih => simp [sharedArgs, ih]

/-- Appending declaration lists concatenates the `ARGS` payloads, the
second list rendered in non-first (comma) mode. -/
theorem sharedArgs_append (u w : List SharedVar) (hu : u ≠ []) :
    sharedArgs true (u ++ w) = sharedArgs true u ++ sharedArgs false w := by
  cases u with
  | nil => exact absurd rfl hu
  | cons v u' => simp [sharedArgs, sharedArgs_append_false]

/-- Appending declaration lists concatenates the `ASSIGN` payloads
(comma-separated mode). -/
theorem sharedAssign_append_false (u w : List SharedVar) :
    sharedAssign false (u ++ w) = sharedAssign false u ++ sharedAssign false w := by
  induction u with
  | nil => simp [sharedAssign]
  | cons v u' ih => simp [sharedAssign, ih]

/-- Appending declaration lists concatenates the `ASSIGN` payloads. -/
theorem sharedAssign_append (u w : List SharedVar) (hu : u ≠ []) :
    sharedAssign true (u ++ w) = sharedAssign true u ++ sharedAssign false w := by
  cases u with
  | nil => exact absurd rfl hu
  | cons v u' => simp [sharedAssign, sharedAssign_append_false]

/-- Appending declaration lists concatenates the `PASS` payloads
(comma-separated mode). -/
theorem sharedPass_append_false (u w : List SharedVar) :
    sharedPass false (u ++ w) = sharedPass false u ++ sharedPass false w := by
  induction u with
  | nil => simp [sharedPass]
  | cons v u' ih => simp [sharedPass, ih]

/-- Appending declaration lists concatenates the `PASS` payloads. -/
theorem sharedPass_append (u w : List SharedVar) (hu : u ≠ []) :
    sharedPass true (u ++ w) = sharedPass true u ++ sharedPass false w := by
  cases u with
  | nil => exact absurd rfl hu
  | cons v u' => simp [sharedPass, sharedPass_append_false]

/-- Appending declaration lists concatenates the `DECLARE` payloads. -/
theorem sharedDeclare_append (u w : List SharedVar) :
    sharedDeclare (u ++ w) = sharedDeclare u ++ sharedDeclare w := by
  induction u with
  | nil => simp [sharedDeclare]
  | cons v u' ih => simp [sharedDeclare, ih]

/-- The directive matcher fails unless the text starts with `#`. -/
theorem matchDirAt_cons_ne (c : Char) (t : List Char) (h : c ≠ '#') :
    matchDirAt (c :: t) = none := by
  unfold matchDirAt
  split
  · rename_i heq; injection heq with h1 h2; exact absurd h1 h
  · rfl

/-- Unfolding of the directive matcher on a `#`-headed text. -/
theorem matchDirAt_hash (r : List Char) :
    matchDirAt ('#' :: r) =
      (if ['i', 'n', 'c', 'l', 'u', 'd', 'e'].isPrefixOf (r.dropWhile isWsC) then
        some (('/' :: '/' :: ['i', 'n', 'c', 'l', 'u', 'd', 'e']), (r.dropWhile isWsC).drop 7)
      else if ['p', 'r', 'a', 'g', 'm', 'a', ' ', 'o', 'n', 'c', 'e'].isPrefixOf (r.dropWhile isWsC) then
        some (('/' :: '/' :: ['p', 'r', 'a', 'g', 'm', 'a', ' ', 'o', 'n', 'c', 'e']), (r.dropWhile isWsC).drop 11)
      else none) := by
  rfl

/-- A directive match consumes at least the `#` (the suffix comes from the
tail) and its replacement is one of the two `//…` literals. -/
theorem matchDirAt_some (l rep rest : List Char) (h : matchDirAt l = some (rep, rest)) :
    ∃ c r, l = c :: r ∧ rest <:+ r ∧
      (rep = ('/' :: '/' :: ['i', 'n', 'c', 'l', 'u', 'd', 'e']) ∨
       rep = ('/' :: '/' :: ['p', 'r', 'a', 'g', 'm', 'a', ' ', 'o', 'n', 'c', 'e'])) := by
  match l with
  | [] => simp [matchDirAt] at h
  | c :: r =>
    by_cases hc : c = '#'
    · subst hc
      rw [matchDirAt_hash] at h
      refine ⟨'#', r, rfl, ?_, ?_⟩
      · split at h
        · injection h with h'; cases h'
          exact (List.drop_suffix _ _).trans (List.dropWhile_suffix _)
        · split at h
          · injection h with h'; cases h'
            exact (List.drop_suffix _ _).trans (List.dropWhile_suffix _)
          · cases h
      · split at h
        · injection h with h'; cases h'; exact Or.inl rfl
        · split at h
          · injection h with h'; cases h'; exact Or.inr rfl
          · cases h
    · rw [matchDirAt_cons_ne c r hc] at h; cases h

/-- Unfolding of `replaceAllF` on a match at the head. -/
theorem replaceAllF_cons_some {m : List Char → Option (List Char × List Char)}
    {c : Char} {r rep rest : List Char} (n : Nat) (hm : m (c :: r) = some (rep, rest)) :
    replaceAllF m (n + 1) (c :: r) = rep ++ replaceAllF m n rest := by
  show (match m (c :: r) with
    | some (rep, rest) => rep ++ replaceAllF m n rest
    | none => c :: replaceAllF m n r) = _
  rw [hm]

/-- Unfolding of `replaceAllF` when the head does not match. -/
theorem replaceAllF_cons_none {m : List Char → Option (List Char × List Char)}
    {c : Char} {r : List Char} (n : Nat) (hm : m (c :: r) = none) :
    replaceAllF m (n + 1) (c :: r) = c :: replaceAllF m n r := by
  show (match m (c :: r) with
    | some (rep, rest) => rep ++ replaceAllF m n rest
    | none => c :: replaceAllF m n r) = _
  rw [hm]

/-- Directive replacement is the identity on texts with no directive match. -/
theorem replaceAllF_dir_id (n : Nat) (t : List Char) (hnm : noMatchDir t) :
    replaceAllF matchDirAt n t = t := by
  induction n generalizing t with
  | zero => rfl
  | succ n ih =>
    cases t with
    | nil => rfl
    | cons c r =>
      have h0 := hnm 0
      rw [List.drop_zero] at h0
      rw [replaceAllF_cons_none n h0]
      exact congrArg (c :: ·) (ih r fun p => by
        have hp := hnm (p + 1); rwa [List.drop_succ_cons] at hp)

/-- Prepending `#`-free text preserves directive-match-freedom. -/
theorem noMatchDir_append (a X : List Char) (ha : ∀ c ∈ a, c ≠ '#')
    (hX : noMatchDir X) : noMatchDir (a ++ X) := by
  induction a with
  | nil => simpa using hX
  | cons d a' ih =>
    intro p
    cases p with
    | zero =>
      rw [List.drop_zero, List.cons_append]
      exact matchDirAt_cons_ne _ _ (ha d (List.mem_cons_self d a'))
    | succ p =>
      rw [List.cons_append, List.drop_succ_cons]
      exact ih (fun c hc => ha c (List.mem_cons_of_mem d hc)) p

/-- A slash-free prefix of the directive-masked text is already a prefix of
the original text. -/
theorem dirPrefixTransfer (n : Nat) (t k : List Char) (hk : ∀ c ∈ k, c ≠ '/')
    (h : k <+: replaceAllF matchDirAt n t) : k <+: t := by
  induction n generalizing t k with
  | zero => exact h
  | succ n ih =>
    cases t with
    | nil => exact h
    | cons c r =>
      cases hm : matchDirAt (c :: r) with
      | none =>
        rw [replaceAllF_cons_none n hm] at h
        cases k with
        | nil => exact List.nil_prefix
        | cons a k' =>
          rw [List.cons_prefix_cons] at h ⊢
          exact ⟨h.1, ih r k' (fun c hc => hk c (List.mem_cons_of_mem a hc)) h.2⟩
      | some pair =>
        obtain ⟨rep, rest⟩ := pair
        rw [replaceAllF_cons_some n hm] at h
        obtain ⟨c', r', heq, hsfx, hrep⟩ := matchDirAt_some _ _ _ hm
        cases k with
        | nil => exact List.nil_prefix
        | cons a k' =>
          exfalso
          rcases hrep with h1 | h1 <;> subst h1 <;>
            · rw [List.cons_append, List.cons_prefix_cons] at h
              exact hk a (List.mem_cons_self a k') h.1


/-- If a directive keyword follows the leading whitespace of the masked
text, it already did so in the original text. -/
theorem dirKwTransfer (a : Char) (kw : List Char)
    (hs : ∀ c ∈ a :: kw, c ≠ '/') (n : Nat) :
    ∀ r : List Char, (a :: kw) <+: ((replaceAllF matchDirAt n r).dropWhile isWsC) →
      (a :: kw) <+: (r.dropWhile isWsC) := by
  induction n with
  | zero => exact fun r h => h
  | succ n ih =>
    intro r h
    cases r with
    | nil => exact h
    | cons c r2 =>
      cases hm : matchDirAt (c :: r2) with
      | none =>
        rw [replaceAllF_cons_none n hm] at h
        rw [List.dropWhile_cons] at h ⊢
        by_cases hcw : isWsC c
        · rw [if_pos hcw] at h ⊢
          exact ih r2 h
        · rw [if_neg hcw] at h ⊢
          rw [List.cons_prefix_cons] at h ⊢
          exact ⟨h.1, dirPrefixTransfer n r2 kw
            (fun c hc => hs c (List.mem_cons_of_mem a hc)) h.2⟩
      | some pair =>
        obtain ⟨rep, rest⟩ := pair
        exfalso
        rw [replaceAllF_cons_some n hm] at h
        obtain ⟨c', r', heq, hsfx, hrep⟩ := matchDirAt_some _ _ _ hm
        rcases hrep with h1 | h1 <;> subst h1 <;>
          · rw [List.cons_append, List.dropWhile_cons] at h
            rw [if_neg (by decide)] at h
            rw [List.cons_prefix_cons] at h
            exact hs a (List.mem_cons_self a kw) h.1

/-- The output of the directive pass contains no directive match at any
position. -/
theorem dirMut_noMatch (n : Nat) (t : List Char) (ht : t.length ≤ n) :
    noMatchDir (replaceAllF matchDirAt n t) := by
  induction n generalizing t with
  | zero =>
    have : t = [] := List.length_eq_zero.mp (Nat.le_zero.mp ht)
    subst this
    intro p
    cases p <;> rfl
  | succ n ih =>
    cases t with
    | nil => intro p; cases p <;> rfl
    | cons c r =>
      have hr : r.length ≤ n := Nat.le_of_succ_le_succ ht
      cases hm : matchDirAt (c :: r) with
      | some pair =>
        obtain ⟨rep, rest⟩ := pair
        rw [replaceAllF_cons_some n hm]
        obtain ⟨c', r', heq, hsfx, hrep⟩ := matchDirAt_some _ _ _ hm
        injection heq with hc1 hr1
        apply noMatchDir_append
        · rcases hrep with h1 | h1 <;> subst h1 <;> decide
        · apply ih
          have hlen : rest.length ≤ r'.length := hsfx.length_le
          rw [← hr1] at hlen
          omega
      | none =>
        rw [replaceAllF_cons_none n hm]
        intro p
        cases p with
        | succ p =>
          rw [List.drop_succ_cons]
          exact ih r hr p
        | zero =>
          rw [List.drop_zero]
          by_cases hc : c = '#'
          · subst hc
            rw [matchDirAt_hash] at hm ⊢
            split at hm
            · cases hm
            · split at hm
              · cases hm
              · rename_i hInc hPrag
                rw [if_neg ?hi, if_neg ?hp]
                case hi =>
                  intro hcon
                  exact hInc (List.isPrefixOf_iff_prefix.mpr
                    (dirKwTransfer 'i' ['n', 'c', 'l', 'u', 'd', 'e'] (by decide) n r
                      (List.isPrefixOf_iff_prefix.mp hcon)))
                case hp =>
                  intro hcon
                  exact hPrag (List.isPrefixOf_iff_prefix.mpr
                    (dirKwTransfer 'p' ['r', 'a', 'g', 'm', 'a', ' ', 'o', 'n', 'c', 'e']
                      (by decide) n r
                      (List.isPrefixOf_iff_prefix.mp hcon)))
          · exact matchDirAt_cons_ne _ _ hc

theorem searchM_some {α : Type} (m : List Char → Option α) (l : List Char) (p : Nat) (a : α)
    (h : searchM m l = some (p, a)) : m (l.drop p) = some a := by
  induction l generalizing p with
  | nil =>
    unfold searchM at h
    cases hm : m [] with
    | none => rw [hm] at h; cases h
    | some a' =>
      rw [hm] at h
      injection h with h'
      injection h' with h1 h2
      subst h1; subst h2
      simpa using hm
  | cons c r ih =>
    unfold searchM at h
    cases hm : m (c :: r) with
    | some a' =>
      rw [hm] at h
      injection h with h'
      injection h' with h1 h2
      subst h1; subst h2
      simpa using hm
    | none =>
      rw [hm] at h
      cases hs : searchM m r with
      | none => rw [hs] at h; cases h
      | some pa =>
        rw [hs] at h
        obtain ⟨p', a'⟩ := pa
        injection h with h'
        injection h' with h1 h2
        subst h2
        subst h1
        rw [List.drop_succ_cons]
        exact ih p' hs

theorem searchM_none {α : Type} (m : List Char → Option α) (l : List Char)
    (h : searchM m l = none) : ∀ p, m (l.drop p) = none := by
  induction l with
  | nil =>
    intro p
    unfold searchM at h
    cases hm : m [] with
    | none => simpa [List.drop_nil] using hm
    | some a => rw [hm] at h; cases h
  | cons c r ih =>
    intro p
    unfold searchM at h
    cases hm : m (c :: r) with
    | some a => rw [hm] at h; cases h
    | none =>
      rw [hm] at h
      cases p with
      | zero => simpa using hm
      | succ p' =>
        rw [List.drop_succ_cons]
        cases hs : searchM m r with
        | none => exact ih hs p'
        | some pa => rw [hs] at h; cases h

theorem bind_eq_some_iff {α β : Type} {x : Option α} {f : α → Option β} {b : β} :
    (x >>= f) = some b ↔ ∃ a, x = some a ∧ f a = some b := by
  cases x <;> simp

theorem expectChar_some (c : Char) (l r : List Char) (h : expectChar c l = some r) :
    l = c :: r := by
  match l with
  | [] => cases h
  | x :: t =>
    simp only [expectChar] at h
    split at h
    · rename_i hx
      injection h with h'
      rw [hx, h']
    · cases h

theorem expectPfx_some (p l r : List Char) (h : expectPfx p l = some r) :
    p.isPrefixOf l = true ∧ r = l.drop p.length := by
  unfold expectPfx at h
  split at h
  · rename_i hp
    injection h with h'
    exact ⟨hp, h'.symm⟩
  · cases h

theorem wsPlus_some (l r : List Char) (h : wsPlus l = some r) :
    r = l.dropWhile isWsC := by
  unfold wsPlus at h
  split at h
  · cases h
  · injection h with h'; exact h'.symm

theorem wordPlus_some (l w r : List Char) (h : wordPlus l = some (w, r)) :
    w = l.takeWhile isWordC ∧ r = l.dropWhile isWordC := by
  unfold wordPlus at h
  split at h
  · cases h
  · injection h with h'
    injection h' with h1 h2
    exact ⟨h1.symm, h2.symm⟩

theorem wsWordWsWord_sfx (r ty nm rest : List Char)
    (h : wsWordWsWord r = some (ty, nm, rest)) : rest <:+ r := by
  simp only [wsWordWsWord, bind_eq_some_iff] at h
  obtain ⟨r1, h1, ⟨ty2, r2⟩, h2, r3, h3, ⟨nm2, r4⟩, h4, h5⟩ := h
  injection h5 with h6
  injection h6 with hty h7
  injection h7 with hnm hrest
  rw [← hrest]
  have e1 := wsPlus_some _ _ h1
  have e2 := (wordPlus_some _ _ _ h2).2
  have e3 := wsPlus_some _ _ h3
  have e4 := (wordPlus_some _ _ _ h4).2
  rw [e4, e3, e2, e1]
  exact (((List.dropWhile_suffix _).trans (List.dropWhile_suffix _)).trans
    (List.dropWhile_suffix _)).trans (List.dropWhile_suffix _)

theorem matchSharedAt_some (l : List Char) (v : SharedVar) (rest : List Char)
    (h : matchSharedAt l = some (v, rest)) : ∃ c r, l = c :: r ∧ rest <:+ r := by
  simp only [matchSharedAt, bind_eq_some_iff] at h
  obtain ⟨r, h1, ⟨ty, nm, r5⟩, h2, r6, h3, h4⟩ := h
  injection h4 with h5
  injection h5 with hv hrest
  obtain ⟨hpfx, hr⟩ := expectPfx_some _ _ _ h1
  match l, hpfx with
  | c :: t, _ =>
    refine ⟨c, t, rfl, ?_⟩
    rw [← hrest]
    have s1 : r6 <:+ r5 := by
      have := expectChar_some _ _ _ h3
      calc r6 <:+ ';' :: r6 := ⟨[';'], rfl⟩
        _ = (r5.dropWhile fun c => c ≠ ';') := this.symm
        _ <:+ r5 := List.dropWhile_suffix _
    have s2 : r5 <:+ r := wsWordWsWord_sfx _ _ _ _ h2
    have s3 : r <:+ t := by
      rw [hr]
      show (c :: t).drop (6 : Nat) <:+ t
      rw [show (6 : Nat) = 5 + 1 from rfl, List.drop_succ_cons]
      exact List.drop_suffix _ _
    exact (s1.trans s2).trans s3

theorem tryQual_some (q l ty nm rest : List Char)
    (h : tryQual q l = some (ty, nm, rest)) :
    q.isPrefixOf l = true ∧ wsWordWsWord (l.drop q.length) = some (ty, nm, rest) := by
  unfold tryQual at h
  split at h
  · rename_i hp; exact ⟨hp, h⟩
  · cases h

theorem decoAlt_sfx (q l rep rest : List Char) (hq : q ≠ [])
    (h : decoAlt q l = some (rep, rest)) : ∃ c r, l = c :: r ∧ rest <:+ r := by
  simp only [decoAlt, Option.map_eq_some'] at h
  obtain ⟨⟨ty, nm, rest2⟩, h1, h2⟩ := h
  injection h2 with hrep hrest
  obtain ⟨hpfx, hww⟩ := tryQual_some _ _ _ _ _ h1
  match q, hq with
  | q0 :: q', _ =>
    match l, hpfx with
    | c :: t, _ =>
      refine ⟨c, t, rfl, ?_⟩
      rw [← hrest]
      have s1 : rest2 <:+ (c :: t).drop (q0 :: q').length := wsWordWsWord_sfx _ _ _ _ hww
      rw [List.length_cons, List.drop_succ_cons] at s1
      exact s1.trans (List.drop_suffix _ _)

theorem matchDecoAt_some (l rep rest : List Char)
    (h : matchDecoAt l = some (rep, rest)) : ∃ c r, l = c :: r ∧ rest <:+ r := by
  unfold matchDecoAt at h
  rw [Option.orElse_eq_some] at h
  rcases h with h | ⟨_, h⟩
  · exact decoAlt_sfx _ _ _ _ (by decide) h
  · rw [Option.orElse_eq_some] at h
    rcases h with h | ⟨_, h⟩
    · exact decoAlt_sfx _ _ _ _ (by decide) h
    · rw [Option.orElse_eq_some] at h
      rcases h with h | ⟨_, h⟩
      · exact decoAlt_sfx _ _ _ _ (by decide) h
      · exact decoAlt_sfx _ _ _ _ (by decide) h

theorem matchArrAt_some (l ty rest : List Char)
    (h : matchArrAt l = some (ty, rest)) : ∃ c r, l = c :: r ∧ rest <:+ r := by
  simp only [matchArrAt, bind_eq_some_iff] at h
  obtain ⟨r, h1, ⟨ty2, r2⟩, h2, r4, h3, r6, h4, rest2, h5, h6⟩ := h
  injection h6 with h7
  injection h7 with hty hrest
  have e1 := expectChar_some _ _ _ h1
  have e3 := expectChar_some _ _ _ h3
  have e4 := expectChar_some _ _ _ h4
  have e5 := expectChar_some _ _ _ h5
  refine ⟨'=', r, e1, ?_⟩
  rw [← hrest]
  have s1 : rest2 <:+ r6.dropWhile isWsC := by
    rw [e5]; exact ⟨['('], rfl⟩
  have s2 : r6 <:+ r4.dropWhile (fun c => c ≠ ']') := by
    rw [e4]; exact ⟨[']'], rfl⟩
  have s3 : r4 <:+ r2.dropWhile isWsC := by
    rw [e3]; exact ⟨['['], rfl⟩
  have s4 : r2 <:+ r.dropWhile isWsC := by
    rw [(wordPlus_some _ _ _ h2).2]; exact List.dropWhile_suffix _
  exact ((((((s1.trans (List.dropWhile_suffix _)).trans s2).trans
    (List.dropWhile_suffix _)).trans s3).trans (List.dropWhile_suffix _)).trans s4).trans
    (List.dropWhile_suffix _)

theorem parenArg_sfx (t rest : List Char) (h : parenArg t = some rest) :
    ∃ r, t = '(' :: r ∧ rest <:+ r := by
  simp only [parenArg, bind_eq_some_iff] at h
  obtain ⟨r, h1, j, h2, h3⟩ := h
  injection h3 with h4
  exact ⟨r, expectChar_some _ _ _ h1, by rw [← h4]; exact List.drop_suffix _ _⟩

theorem digitStep_some (l r : List Char) (h : digitStep l = some r) :
    ∃ d, l = d :: r := by
  match l with
  | [] => cases h
  | d :: t =>
    simp only [digitStep] at h
    split at h
    · injection h with h'
      exact ⟨d, by rw [h']⟩
    · cases h

theorem matNum_sfx (t rest : List Char) (h : matNum t = some rest) :
    rest <:+ t := by
  simp only [matNum, bind_eq_some_iff] at h
  obtain ⟨r1, hd, h2⟩ := h
  obtain ⟨d, hdt⟩ := digitStep_some _ _ hd
  rw [Option.orElse_eq_some] at h2
  have base : rest <:+ r1 → rest <:+ t := by
    intro hx
    rw [hdt]
    exact hx.trans ⟨[d], rfl⟩
  rcases h2 with h2 | ⟨_, h2⟩
  · obtain ⟨pr, hpr, hsfx⟩ := parenArg_sfx _ _ h2
    exact base (by rw [hpr]; exact hsfx.trans ⟨['('], rfl⟩)
  · simp only [bind_eq_some_iff] at h2
    obtain ⟨r2, hx, r3, hd2, hp⟩ := h2
    obtain ⟨pr, hpr, hsfx⟩ := parenArg_sfx _ _ hp
    obtain ⟨d2, hr2⟩ := digitStep_some _ _ hd2
    have e1 := expectChar_some _ _ _ hx
    apply base
    rw [e1, hr2, hpr]
    exact ((hsfx.trans ⟨['('], rfl⟩).trans ⟨[d2], rfl⟩).trans ⟨['x'], rfl⟩

theorem floatNum_sfx (t rest : List Char) (h : floatNum t = some rest) :
    rest <:+ t := by
  simp only [floatNum, bind_eq_some_iff] at h
  obtain ⟨r1, hd, r2, hx, r3, hd2, hp⟩ := h
  obtain ⟨d, hdt⟩ := digitStep_some _ _ hd
  obtain ⟨d2, hr2⟩ := digitStep_some _ _ hd2
  obtain ⟨pr, hpr, hsfx⟩ := parenArg_sfx _ _ hp
  have e1 := expectChar_some _ _ _ hx
  rw [hdt, e1, hr2, hpr]
  exact (((hsfx.trans ⟨['('], rfl⟩).trans ⟨[d2], rfl⟩).trans ⟨['x'], rfl⟩).trans ⟨[d], rfl⟩

theorem matchMatAt_some (l rest : List Char)
    (h : matchMatAt l = some rest) : ∃ c r, l = c :: r ∧ rest <:+ r := by
  match l with
  | [] => cases h
  | c :: r =>
    refine ⟨c, r, rfl, ?_⟩
    simp only [matchMatAt] at h
    split at h
    · split at h
      · exact ((matNum_sfx _ _ h).trans (List.drop_suffix _ _)).trans
          (List.dropWhile_suffix _)
      · split at h
        · exact ((floatNum_sfx _ _ h).trans (List.drop_suffix _ _)).trans
            (List.dropWhile_suffix _)
        · cases h
    · cases h

theorem matLintF_succ_none (n : Nat) (l : List Char)
    (h : searchM matchMatAt l = none) : matLintF (n + 1) l = [] := by
  show (match searchM matchMatAt l with
    | none => ([] : List Diag)
    | some (p, rest) => ⟨l, matchedOf l p rest, msgMat⟩ :: matLintF n rest) = []
  rw [h]

theorem matLintF_succ_some (n : Nat) (l : List Char) (p : Nat) (rest : List Char)
    (h : searchM matchMatAt l = some (p, rest)) :
    matLintF (n + 1) l = ⟨l, matchedOf l p rest, msgMat⟩ :: matLintF n rest := by
  show (match searchM matchMatAt l with
    | none => ([] : List Diag)
    | some (p, rest) => ⟨l, matchedOf l p rest, msgMat⟩ :: matLintF n rest) = _
  rw [h]

theorem arrLintF_succ_none (n : Nat) (l : List Char)
    (h : searchM matchArrAt l = none) : arrLintF (n + 1) l = [] := by
  show (match searchM matchArrAt l with
    | none => ([] : List Diag)
    | some (p, _, rest) => ⟨l, matchedOf l p rest, msgArr⟩ :: arrLintF n rest) = []
  rw [h]

theorem arrLintF_succ_some (n : Nat) (l : List Char) (p : Nat) (ty rest : List Char)
    (h : searchM matchArrAt l = some (p, ty, rest)) :
    arrLintF (n + 1) l = ⟨l, matchedOf l p rest, msgArr⟩ :: arrLintF n rest := by
  show (match searchM matchArrAt l with
    | none => ([] : List Diag)
    | some (p, _, rest) => ⟨l, matchedOf l p rest, msgArr⟩ :: arrLintF n rest) = _
  rw [h]

theorem tgF_succ_none (n : Nat) (l : List Char)
    (h : searchM matchSharedAt l = none) : tgF (n + 1) l = [] := by
  show (match searchM matchSharedAt l with
    | none => ([] : List SharedVar)
    | some (_, v, rest) => v :: tgF n rest) = []
  rw [h]

theorem tgF_succ_some (n : Nat) (l : List Char) (p : Nat) (v : SharedVar) (rest : List Char)
    (h : searchM matchSharedAt l = some (p, v, rest)) :
    tgF (n + 1) l = v :: tgF n rest := by
  show (match searchM matchSharedAt l with
    | none => ([] : List SharedVar)
    | some (_, v, rest) => v :: tgF n rest) = _
  rw [h]

theorem matLintF_mem (n : Nat) : ∀ l d, d ∈ matLintF n l → d.ctx <:+ l ∧ d.msg = msgMat := by
  induction n with
  | zero => intro l d hd; exact absurd hd (List.not_mem_nil d)
  | succ n ih =>
    intro l d hd
    cases hs : searchM matchMatAt l with
    | none =>
      rw [matLintF_succ_none n l hs] at hd
      exact absurd hd (List.not_mem_nil d)
    | some pr =>
      obtain ⟨p, rest⟩ := pr
      rw [matLintF_succ_some n l p rest hs] at hd
      rcases List.mem_cons.mp hd with h1 | h1
      · subst h1; exact ⟨List.suffix_refl _, rfl⟩
      · have hmem := ih rest d h1
        refine ⟨hmem.1.trans ?_, hmem.2⟩
        have hse := searchM_some _ _ _ _ hs
        obtain ⟨c, r, heq, hsfx⟩ := matchMatAt_some _ _ hse
        have h2 : c :: r <:+ l := heq ▸ List.drop_suffix p l
        exact (hsfx.trans ⟨[c], rfl⟩).trans h2

theorem arrLintF_mem (n : Nat) : ∀ l d, d ∈ arrLintF n l → d.ctx <:+ l ∧ d.msg = msgArr := by
  induction n with
  | zero => intro l d hd; exact absurd hd (List.not_mem_nil d)
  | succ n ih =>
    intro l d hd
    cases hs : searchM matchArrAt l with
    | none =>
      rw [arrLintF_succ_none n l hs] at hd
      exact absurd hd (List.not_mem_nil d)
    | some pr =>
      obtain ⟨p, ty, rest⟩ := pr
      rw [arrLintF_succ_some n l p ty rest hs] at hd
      rcases List.mem_cons.mp hd with h1 | h1
      · subst h1; exact ⟨List.suffix_refl _, rfl⟩
      · have hmem := ih rest d h1
        refine ⟨hmem.1.trans ?_, hmem.2⟩
        have hse := searchM_some _ _ _ _ hs
        obtain ⟨c, r, heq, hsfx⟩ := matchArrAt_some _ _ _ hse
        have h2 : c :: r <:+ l := heq ▸ List.drop_suffix p l
        exact (hsfx.trans ⟨[c], rfl⟩).trans h2

theorem matLint_head (l : List Char) (d : Diag)
    (h : (matrix_constructor_linting l).head? = some d) : d.ctx = l := by
  unfold matrix_constructor_linting at h
  cases hs : searchM matchMatAt l with
  | none => rw [matLintF_succ_none _ _ hs] at h; cases h
  | some pr =>
    obtain ⟨p, rest⟩ := pr
    rw [matLintF_succ_some _ _ _ _ hs] at h
    injection h with h'
    rw [← h']

theorem arrLint_head (l : List Char) (d : Diag)
    (h : (array_constructor_linting l).head? = some d) : d.ctx = l := by
  unfold array_constructor_linting at h
  cases hs : searchM matchArrAt l with
  | none => rw [arrLintF_succ_none _ _ hs] at h; cases h
  | some pr =>
    obtain ⟨p, ty, rest⟩ := pr
    rw [arrLintF_succ_some _ _ _ _ _ hs] at h
    injection h with h'
    rw [← h']

theorem remove_comments_diag (s : List Char) :
    ∀ d ∈ (remove_comments s).2, d.ctx = s ∧ d.matched = [] := by
  intro d hd
  simp only [remove_comments] at hd
  split at hd
  · rw [List.mem_singleton] at hd; subst hd; exact ⟨rfl, rfl⟩
  · split at hd
    · rw [List.mem_singleton] at hd; subst hd; exact ⟨rfl, rfl⟩
    · exact absurd hd (List.not_mem_nil d)

theorem maskMultiF_id (l : List Char) (h : findFrom ['/', '*'] l 0 = none) (n : Nat) :
    maskMultiF n l 0 = (l, false) := by
  cases n with
  | zero => rfl
  | succ n => simp [maskMultiF, h]

theorem maskSingleF_id (l : List Char) (h : findFrom ['/', '/'] l 0 = none) (n : Nat) :
    maskSingleF n l 0 = (l, false) := by
  cases n with
  | zero => rfl
  | succ n => simp [maskSingleF, h]

theorem remove_comments_nc (s : List Char)
    (h1 : findFrom ['/', '*'] s 0 = none) (h2 : findFrom ['/', '/'] s 0 = none) :
    remove_comments s = (collapseF (s.length + 1) s, []) := by
  simp [remove_comments, maskMultiF_id s h1, maskSingleF_id s h2]

theorem spacesNewline_none_head (c : Char) (t : List Char) (h1 : c ≠ ' ') (h2 : c ≠ '\n') :
    spacesNewline (c :: t) = none := by
  simp [spacesNewline, h1, h2]

theorem spacesNewline_space (t : List Char) : spacesNewline (' ' :: t) = spacesNewline t := by
  simp [spacesNewline]

theorem spacesNewline_nl (t : List Char) : spacesNewline ('\n' :: t) = some t := by
  simp [spacesNewline]

theorem spacesNewline_len (l r : List Char) (h : spacesNewline l = some r) :
    r.length < l.length := by
  induction l with
  | nil => cases h
  | cons c t ih =>
    simp only [spacesNewline] at h
    split at h
    · injection h with h'; rw [← h']; simp
    · split at h
      · have := ih h
        simpa using Nat.lt_succ_of_lt this
      · cases h

theorem collapseF_succ_some (n : Nat) (c : Char) (r r' : List Char)
    (h : spacesNewline (c :: r) = some r') :
    collapseF (n + 1) (c :: r) = '\n' :: collapseF n r' := by
  show (match spacesNewline (c :: r) with
    | some r' => '\n' :: collapseF n r'
    | none => c :: collapseF n r) = _
  rw [h]

theorem collapseF_succ_none (n : Nat) (c : Char) (r : List Char)
    (h : spacesNewline (c :: r) = none) :
    collapseF (n + 1) (c :: r) = c :: collapseF n r := by
  show (match spacesNewline (c :: r) with
    | some r' => '\n' :: collapseF n r'
    | none => c :: collapseF n r) = _
  rw [h]

theorem collapse_word_chunk (w : List Char) (hw : ∀ c ∈ w, c ≠ ' ' ∧ c ≠ '\n') :
    ∀ n b, ∃ m, collapseF n (w ++ b) = w ++ collapseF m b := by
  induction w with
  | nil => exact fun n b => ⟨n, rfl⟩
  | cons c w' ih =>
    intro n b
    cases n with
    | zero => exact ⟨0, rfl⟩
    | succ n =>
      have hc := hw c (List.mem_cons_self c w')
      rw [List.cons_append,
        collapseF_succ_none n c (w' ++ b) (spacesNewline_none_head _ _ hc.1 hc.2)]
      obtain ⟨m, e⟩ := ih (fun d hd => hw d (List.mem_cons_of_mem c hd)) n b
      exact ⟨m, by rw [e, List.cons_append]⟩

theorem spacesNewline_sub_none (w b : List Char) (d : Char) (hd1 : d ≠ ' ') (hd2 : d ≠ '\n') :
    spacesNewline ((' ' :: d :: w) ++ b) = none := by
  rw [List.cons_append, spacesNewline_space, List.cons_append]
  exact spacesNewline_none_head _ _ hd1 hd2

theorem spacesNewline_split (sub b : List Char)
    (hsub : ∀ b', spacesNewline (sub ++ b') = none) :
    ∀ a r', spacesNewline (a ++ sub ++ b) = some r' →
      ∃ a2, a2.length < a.length ∧ r' = a2 ++ sub ++ b := by
  intro a
  induction a with
  | nil =>
    intro r' h
    rw [List.nil_append] at h
    rw [hsub b] at h
    cases h
  | cons c a' ih =>
    intro r' h
    rw [List.cons_append, List.cons_append] at h
    by_cases hc : c = '\n'
    · subst hc
      rw [spacesNewline_nl] at h
      injection h with h'
      exact ⟨a', Nat.lt_succ_self _, by rw [← h']⟩
    · by_cases hc2 : c = ' '
      · subst hc2
        rw [spacesNewline_space] at h
        obtain ⟨a2, hlen, he⟩ := ih r' h
        exact ⟨a2, Nat.lt_succ_of_lt hlen, he⟩
      · rw [spacesNewline_none_head _ _ hc2 hc] at h
        cases h

theorem collapse_keeps_sub (d : Char) (w : List Char)
    (hw : ∀ c ∈ d :: w, c ≠ ' ' ∧ c ≠ '\n') :
    ∀ n a b, (a ++ (' ' :: d :: w) ++ b).length ≤ n →
      ∃ a2 b2, collapseF n (a ++ (' ' :: d :: w) ++ b) = a2 ++ (' ' :: d :: w) ++ b2 := by
  intro n
  induction n with
  | zero =>
    intro a b h
    exfalso
    simp [List.length_append] at h
  | succ n ih =>
    intro a b h
    cases a with
    | nil =>
      rw [List.nil_append, List.cons_append]
      have hd := hw d (List.mem_cons_self d w)
      have hsp : spacesNewline (' ' :: ((d :: w) ++ b)) = none := by
        rw [spacesNewline_space, List.cons_append]
        exact spacesNewline_none_head _ _ hd.1 hd.2
      rw [collapseF_succ_none n _ _ hsp]
      obtain ⟨m, e⟩ := collapse_word_chunk (d :: w) hw n b
      refine ⟨[], collapseF m b, ?_⟩
      rw [e]
      simp
    | cons c a' =>
      have hd := hw d (List.mem_cons_self d w)
      have hsubnone : ∀ b', spacesNewline ((' ' :: d :: w) ++ b') = none :=
        fun b' => spacesNewline_sub_none w b' d hd.1 hd.2
      have hshape : (c :: a') ++ (' ' :: d :: w) ++ b =
          c :: (a' ++ (' ' :: d :: w) ++ b) := by simp
      rw [hshape]
      cases hsp : spacesNewline (c :: (a' ++ (' ' :: d :: w) ++ b)) with
      | none =>
        rw [collapseF_succ_none n _ _ hsp]
        have hlen : (a' ++ (' ' :: d :: w) ++ b).length ≤ n := by
          rw [hshape] at h
          simpa using Nat.le_of_succ_le_succ h
        obtain ⟨a2, b2, e⟩ := ih a' b hlen
        exact ⟨c :: a2, b2, by rw [e]; simp⟩
      | some r' =>
        rw [collapseF_succ_some n _ _ _ hsp]
        have hsp2 : spacesNewline ((c :: a') ++ (' ' :: d :: w) ++ b) = some r' := by
          rw [hshape]; exact hsp
        obtain ⟨a2', hlen, he⟩ :=
          spacesNewline_split (' ' :: d :: w) b hsubnone (c :: a') r' hsp2
        subst he
        have hlen2 : (a2' ++ (' ' :: d :: w) ++ b).length ≤ n := by
          have hl := spacesNewline_len _ _ hsp2
          rw [hshape] at h
          simp only [List.length_append, List.length_cons] at h hl ⊢
          omega
        obtain ⟨a2, b2, e⟩ := ih a2' b hlen2
        exact ⟨'\n' :: a2, b2, by rw [e]; simp⟩

theorem takeWhile_append_all (p : Char → Bool) (u v : List Char)
    (hu : ∀ c ∈ u, p c = true) :
    (u ++ v).takeWhile p = u ++ v.takeWhile p := by
  induction u with
  | nil => rfl
  | cons c u' ih =>
    rw [List.cons_append, List.takeWhile_cons, if_pos (hu c (List.mem_cons_self _ _)),
      ih (fun e he => hu e (List.mem_cons_of_mem _ he)), List.cons_append]

theorem lastClose_append (u w : List Char) :
    ∃ j, lastClose (u ++ ')' :: w) = some j ∧ u.length ≤ j := by
  induction u with
  | nil =>
    cases hw : lastClose w with
    | none => exact ⟨0, by simp [lastClose, hw], Nat.zero_le _⟩
    | some j => exact ⟨j + 1, by simp [lastClose, hw], Nat.zero_le _⟩
  | cons c u' ih =>
    obtain ⟨j, hj, hge⟩ := ih
    refine ⟨j + 1, ?_, by simpa using Nat.succ_le_succ hge⟩
    rw [List.cons_append]
    simp [lastClose, hj]

theorem closeIdx_other_mat (b2 : List Char) :
    ∃ j, closeIdx ("other_mat".data ++ ')' :: b2) = some j ∧ 9 ≤ j := by
  obtain ⟨j, hj, hge⟩ := lastClose_append ("other_mat".data) (List.takeWhile isMatArgC b2)
  have h9 : ("other_mat".data).length = 9 := rfl
  rw [h9] at hge
  refine ⟨j, ?_, hge⟩
  have htw : List.takeWhile isMatArgC ("other_mat".data ++ ')' :: b2) =
      "other_mat".data ++ ')' :: List.takeWhile isMatArgC b2 := by
    rw [takeWhile_append_all isMatArgC ("other_mat".data) _ (by decide),
      List.takeWhile_cons, if_pos (by decide)]
  simp only [closeIdx, htw, hj]
  show (if 1 ≤ j then some j else none) = some j
  rw [if_pos (show 1 ≤ j by omega)]

theorem parenArg_other_mat (b2 : List Char) :
    ∃ rest, parenArg ('(' :: ("other_mat".data ++ ')' :: b2)) = some rest := by
  obtain ⟨j, hj, _⟩ := closeIdx_other_mat b2
  refine ⟨("other_mat".data ++ ')' :: b2).drop (j + 1), ?_⟩
  show (expectChar '(' ('(' :: ("other_mat".data ++ ')' :: b2)) >>= fun r =>
    closeIdx r >>= fun j => some (r.drop (j + 1))) = _
  rw [show expectChar '(' ('(' :: ("other_mat".data ++ ')' :: b2)) =
    some ("other_mat".data ++ ')' :: b2) from rfl]
  show (closeIdx ("other_mat".data ++ ')' :: b2) >>= fun j =>
    some (("other_mat".data ++ ')' :: b2).drop (j + 1))) = _
  rw [hj]
  rfl

theorem matchMat_at_occurrence (b2 : List Char) :
    ∃ rest, matchMatAt ((" mat4(other_mat)".data) ++ b2) = some rest := by
  obtain ⟨rest, hparen⟩ := parenArg_other_mat b2
  refine ⟨rest, ?_⟩
  have hX : (" mat4(other_mat)".data) ++ b2 =
      ' ' :: ('m' :: 'a' :: 't' :: '4' :: '(' :: ("other_mat".data ++ ')' :: b2)) := rfl
  rw [hX]
  show (if isWsC ' ' = true then
      if ['m', 'a', 't'].isPrefixOf
          ((('m' :: 'a' :: 't' :: '4' :: '(' :: ("other_mat".data ++ ')' :: b2)).dropWhile isWsC)) = true then
        matNum ((('m' :: 'a' :: 't' :: '4' :: '(' :: ("other_mat".data ++ ')' :: b2)).dropWhile isWsC).drop 3)
      else if ['f', 'l', 'o', 'a', 't'].isPrefixOf
          ((('m' :: 'a' :: 't' :: '4' :: '(' :: ("other_mat".data ++ ')' :: b2)).dropWhile isWsC)) = true then
        floatNum ((('m' :: 'a' :: 't' :: '4' :: '(' :: ("other_mat".data ++ ')' :: b2)).dropWhile isWsC).drop 5)
      else none
    else none) = some rest
  rw [if_pos (show isWsC ' ' = true from by decide)]
  have hdw : ('m' :: 'a' :: 't' :: '4' :: '(' :: ("other_mat".data ++ ')' :: b2)).dropWhile isWsC =
      'm' :: 'a' :: 't' :: '4' :: '(' :: ("other_mat".data ++ ')' :: b2) := by
    rw [List.dropWhile_cons, if_neg (by decide)]
  rw [hdw]
  rw [if_pos (show (['m', 'a', 't'].isPrefixOf
    ('m' :: 'a' :: 't' :: '4' :: '(' :: ("other_mat".data ++ ')' :: b2))) = true from rfl)]
  show matNum ('4' :: '(' :: ("other_mat".data ++ ')' :: b2)) = some rest
  show (digitStep ('4' :: '(' :: ("other_mat".data ++ ')' :: b2)) >>= fun r1 =>
    parenArg r1 <|> (expectChar 'x' r1 >>= fun r2 => digitStep r2 >>= fun r3 => parenArg r3)) = some rest
  rw [show digitStep ('4' :: '(' :: ("other_mat".data ++ ')' :: b2)) =
    some ('(' :: ("other_mat".data ++ ')' :: b2)) from by simp [digitStep, isDigitC]]
  show (parenArg ('(' :: ("other_mat".data ++ ')' :: b2)) <|>
    (expectChar 'x' ('(' :: ("other_mat".data ++ ')' :: b2)) >>= fun r2 =>
      digitStep r2 >>= fun r3 => parenArg r3)) = some rest
  rw [hparen]
  rfl

theorem searchM_of_match {α : Type} (m : List Char → Option α) (l : List Char) (p : Nat)
    (h : m (l.drop p) ≠ none) : searchM m l ≠ none :=
  fun hn => h (searchM_none m l hn p)

theorem matLint_nonempty (l : List Char) (h : searchM matchMatAt l ≠ none) :
    ∃ d ∈ matrix_constructor_linting l, d.msg = msgMat := by
  unfold matrix_constructor_linting
  cases hs : searchM matchMatAt l with
  | none => exact absurd hs h
  | some pr =>
    obtain ⟨p, rest⟩ := pr
    rw [matLintF_succ_some _ _ _ _ hs]
    exact ⟨_, List.mem_cons_self _ _, rfl⟩

/-- C7 (amended): for every input in which ` mat4(other_mat)` occurs with
its leading whitespace and the input contains no comment opener (`/*` or
`//`, so the occurrence cannot sit inside a comment), `process` delivers
at least one diagnostic carrying the fixed matrix-constructor
incompatibility message, and the linter never mutates the text: the output
is exactly what the mutating passes alone produce plus the codegen
suffix. -/
theorem c7_matrix_lint_reports (b1 b2 b3 : Bool) (st : List SharedVar) (a b : List Char)
    (h1 : findFrom ['/', '*'] (a ++ (" mat4(other_mat)".data) ++ b) 0 = none)
    (h2 : findFrom ['/', '/'] (a ++ (" mat4(other_mat)".data) ++ b) 0 = none) :
    (∃ d ∈ (process b1 b2 b3 (a ++ (" mat4(other_mat)".data) ++ b) st).2.1,
      d.msg = msgMat) ∧
    (process b1 b2 b3 (a ++ (" mat4(other_mat)".data) ++ b) st).1 =
      bodyOf (a ++ (" mat4(other_mat)".data) ++ b) ++
        suffixGen (st ++ varsOf (a ++ (" mat4(other_mat)".data) ++ b)) := by
  refine ⟨?_, rfl⟩
  have hrc : remove_comments (a ++ (" mat4(other_mat)".data) ++ b) =
      (collapseF ((a ++ (" mat4(other_mat)".data) ++ b).length + 1)
        (a ++ (" mat4(other_mat)".data) ++ b), []) :=
    remove_comments_nc _ h1 h2
  have hid : (" mat4(other_mat)".data) = ' ' :: 'm' :: ("at4(other_mat)".data) := rfl
  have hsub : ∃ a2 b2, collapseF ((a ++ (" mat4(other_mat)".data) ++ b).length + 1)
      (a ++ (" mat4(other_mat)".data) ++ b) = a2 ++ (" mat4(other_mat)".data) ++ b2 := by
    rw [hid]
    exact collapse_keeps_sub 'm' ("at4(other_mat)".data) (by decide) _ a b (Nat.le_succ _)
  obtain ⟨a2, b2, he⟩ := hsub
  have hsearch : searchM matchMatAt
      (collapseF ((a ++ (" mat4(other_mat)".data) ++ b).length + 1)
        (a ++ (" mat4(other_mat)".data) ++ b)) ≠ none := by
    apply searchM_of_match _ _ a2.length
    rw [he, List.append_assoc, List.drop_left]
    obtain ⟨rest, hm⟩ := matchMat_at_occurrence b2
    rw [hm]
    exact Option.some_ne_none rest
  obtain ⟨d, hd, hmsg⟩ := matLint_nonempty _ hsearch
  refine ⟨d, ?_, hmsg⟩
  show d ∈ (remove_comments (a ++ (" mat4(other_mat)".data) ++ b)).2 ++
    matrix_constructor_linting (remove_comments (a ++ (" mat4(other_mat)".data) ++ b)).1 ++
    array_constructor_linting (remove_comments (a ++ (" mat4(other_mat)".data) ++ b)).1
  rw [hrc]
  exact List.mem_append.mpr (Or.inl (List.mem_append.mpr (Or.inr hd)))

theorem maskRangeKeepNL_len (l : List Char) : ∀ a b, (maskRangeKeepNL l a b).length = l.length := by
  induction l with
  | nil => intro a b; rfl
  | cons c r ih => intro a b; simp [maskRangeKeepNL, ih]

theorem maskRangeAll_len (l : List Char) : ∀ a b, (maskRangeAll l a b).length = l.length := by
  induction l with
  | nil => intro a b; rfl
  | cons c r ih => intro a b; simp [maskRangeAll, ih]

theorem countNL_maskRangeKeepNL (l : List Char) :
    ∀ a b, countNL (maskRangeKeepNL l a b) = countNL l := by
  induction l with
  | nil => intro a b; rfl
  | cons c r ih =>
    intro a b
    show countNL ((if a = 0 ∧ 0 < b ∧ c ≠ '\n' then ' ' else c) :: maskRangeKeepNL r (a - 1) (b - 1)) = _
    by_cases hc : a = 0 ∧ 0 < b ∧ c ≠ '\n'
    · rw [if_pos hc]
      show (if ' ' = '\n' then 1 else 0) + countNL (maskRangeKeepNL r (a - 1) (b - 1)) = _
      rw [ih]
      show (0 : Nat) + countNL r = (if c = '\n' then 1 else 0) + countNL r
      rw [if_neg hc.2.2]
    · rw [if_neg hc]
      show (if c = '\n' then 1 else 0) + countNL (maskRangeKeepNL r (a - 1) (b - 1)) = _
      rw [ih]
      rfl

theorem countNL_maskRangeAll (l : List Char) :
    ∀ a b, (∀ i, a ≤ i → i < b → l[i]? ≠ some '\n') →
      countNL (maskRangeAll l a b) = countNL l := by
  induction l with
  | nil => intro a b _; rfl
  | cons c r ih =>
    intro a b hr
    show countNL ((if a = 0 ∧ 0 < b then ' ' else c) :: maskRangeAll r (a - 1) (b - 1)) = _
    have hrec : ∀ i, a - 1 ≤ i → i < b - 1 → r[i]? ≠ some '\n' := by
      intro i h1 h2
      have := hr (i + 1) (by omega) (by omega)
      simpa using this
    by_cases hc : a = 0 ∧ 0 < b
    · rw [if_pos hc]
      have hcnl : c ≠ '\n' := by
        have := hr 0 (by omega) (by omega)
        simpa using this
      show (if ' ' = '\n' then 1 else 0) + countNL (maskRangeAll r (a - 1) (b - 1)) = _
      rw [ih _ _ hrec]
      show (0 : Nat) + countNL r = (if c = '\n' then 1 else 0) + countNL r
      rw [if_neg hcnl]
    · rw [if_neg hc]
      show (if c = '\n' then 1 else 0) + countNL (maskRangeAll r (a - 1) (b - 1)) = _
      rw [ih _ _ hrec]
      rfl

theorem findSub_at (pat l : List Char) (j : Nat) (h : findSub pat l = some j) :
    pat.isPrefixOf (l.drop j) = true := by
  induction l generalizing j with
  | nil =>
    unfold findSub at h
    split at h
    · rename_i hp
      injection h with h'
      subst h'
      simp [hp, List.isPrefixOf]
    · cases h
  | cons c r ih =>
    unfold findSub at h
    split at h
    · rename_i hp
      injection h with h'
      subst h'
      exact hp
    · cases hs : findSub pat r with
      | none => rw [hs] at h; cases h
      | some j' =>
        rw [hs] at h
        injection h with h'
        subst h'
        rw [List.drop_succ_cons]
        exact ih j' hs
  
theorem findSub_min (pat l : List Char) (j : Nat) (h : findSub pat l = some j) :
    ∀ k, k < j → pat.isPrefixOf (l.drop k) = false := by
  induction l generalizing j with
  | nil =>
    unfold findSub at h
    split at h
    · injection h with h'
      subst h'
      intro k hk
      omega
    · cases h
  | cons c r ih =>
    unfold findSub at h
    split at h
    · injection h with h'
      subst h'
      intro k hk
      omega
    · rename_i hp
      cases hs : findSub pat r with
      | none => rw [hs] at h; cases h
      | some j' =>
        rw [hs] at h
        injection h with h'
        subst h'
        intro k hk
        cases k with
        | zero => exact Bool.not_eq_true _ ▸ Bool.of_not_eq_true hp
        | succ k' =>
          rw [List.drop_succ_cons]
          exact ih j' hs k' (by omega)

theorem findFrom_at (pat l : List Char) (i j : Nat) (h : findFrom pat l i = some j) :
    i ≤ j ∧ pat.isPrefixOf (l.drop j) = true := by
  unfold findFrom at h
  cases hs : findSub pat (l.drop i) with
  | none => rw [hs] at h; cases h
  | some j' =>
    rw [hs] at h
    injection h with h'
    subst h'
    refine ⟨by omega, ?_⟩
    have := findSub_at _ _ _ hs
    rwa [List.drop_drop, Nat.add_comm] at this

theorem findFrom_min (pat l : List Char) (i j : Nat) (h : findFrom pat l i = some j) :
    ∀ k, i ≤ k → k < j → pat.isPrefixOf (l.drop k) = false := by
  unfold findFrom at h
  cases hs : findSub pat (l.drop i) with
  | none => rw [hs] at h; cases h
  | some j' =>
    rw [hs] at h
    injection h with h'
    subst h'
    intro k hk1 hk2
    have := findSub_min _ _ _ hs (k - i) (by omega)
    rwa [List.drop_drop, Nat.add_sub_cancel' hk1] at this

theorem getq_eq_head_drop (l : List Char) : ∀ k : Nat, l[k]? = (l.drop k).head? := by
  induction l with
  | nil => intro k; simp
  | cons c r ih =>
    intro k
    cases k with
    | zero => simp
    | succ k' =>
      rw [List.getElem?_cons_succ, List.drop_succ_cons]
      exact ih k'

theorem isPrefixOf_cons_ex (x : Char) (p t : List Char) (h : (x :: p).isPrefixOf t = true) :
    ∃ u, t = x :: u ∧ p.isPrefixOf u = true := by
  cases t with
  | nil => simp [List.isPrefixOf] at h
  | cons y u =>
    simp only [List.isPrefixOf, Bool.and_eq_true, beq_iff_eq] at h
    exact ⟨u, by rw [h.1], h.2⟩

theorem maskMultiF_len (n : Nat) : ∀ l e, ((maskMultiF n l e).1).length = l.length := by
  induction n with
  | zero => intro l e; rfl
  | succ n ih =>
    intro l e
    show ((match findFrom ['/', '*'] l e with
      | none => (l, false)
      | some start =>
        match findFrom ['*', '/'] l (start + 2) with
        | none => (l, true)
        | some e2 => maskMultiF n (maskRangeKeepNL l start (e2 + 2)) e2).1).length = l.length
    cases h1 : findFrom ['/', '*'] l e with
    | none => rfl
    | some start =>
      show ((match findFrom ['*', '/'] l (start + 2) with
        | none => (l, true)
        | some e2 => maskMultiF n (maskRangeKeepNL l start (e2 + 2)) e2).1).length = l.length
      cases h2 : findFrom ['*', '/'] l (start + 2) with
      | none => rfl
      | some e2 =>
        show ((maskMultiF n (maskRangeKeepNL l start (e2 + 2)) e2).1).length = _
        rw [ih, maskRangeKeepNL_len]

theorem countNL_maskMultiF (n : Nat) : ∀ l e, countNL ((maskMultiF n l e).1) = countNL l := by
  induction n with
  | zero => intro l e; rfl
  | succ n ih =>
    intro l e
    show countNL ((match findFrom ['/', '*'] l e with
      | none => (l, false)
      | some start =>
        match findFrom ['*', '/'] l (start + 2) with
        | none => (l, true)
        | some e2 => maskMultiF n (maskRangeKeepNL l start (e2 + 2)) e2).1) = countNL l
    cases h1 : findFrom ['/', '*'] l e with
    | none => rfl
    | some start =>
      show countNL ((match findFrom ['*', '/'] l (start + 2) with
        | none => (l, true)
        | some e2 => maskMultiF n (maskRangeKeepNL l start (e2 + 2)) e2).1) = countNL l
      cases h2 : findFrom ['*', '/'] l (start + 2) with
      | none => rfl
      | some e2 =>
        show countNL ((maskMultiF n (maskRangeKeepNL l start (e2 + 2)) e2).1) = _
        rw [ih, countNL_maskRangeKeepNL]

theorem maskSingleF_len (n : Nat) : ∀ l e, ((maskSingleF n l e).1).length = l.length := by
  induction n with
  | zero => intro l e; rfl
  | succ n ih =>
    intro l e
    show ((match findFrom ['/', '/'] l e with
      | none => (l, false)
      | some start =>
        match findFrom ['\n'] l (start + 2) with
        | none => (l, true)
        | some e2 => maskSingleF n (maskRangeAll l start e2) e2).1).length = l.length
    cases h1 : findFrom ['/', '/'] l e with
    | none => rfl
    | some start =>
      show ((match findFrom ['\n'] l (start + 2) with
        | none => (l, true)
        | some e2 => maskSingleF n (maskRangeAll l start e2) e2).1).length = l.length
      cases h2 : findFrom ['\n'] l (start + 2) with
      | none => rfl
      | some e2 =>
        show ((maskSingleF n (maskRangeAll l start e2) e2).1).length = _
        rw [ih, maskRangeAll_len]

theorem singleton_pfx (c : Char) (t : List Char) :
    ([c].isPrefixOf t = true) ↔ t.head? = some c := by
  cases t with
  | nil => simp [List.isPrefixOf]
  | cons x u =>
    simp only [List.isPrefixOf, Bool.and_eq_true, beq_iff_eq, List.head?_cons,
      Option.some_inj]
    constructor
    · rintro ⟨h1, _⟩; exact h1.symm
    · intro h1; exact ⟨h1.symm, by simp [List.isPrefixOf]⟩

theorem countNL_maskSingleF (n : Nat) : ∀ l e, countNL ((maskSingleF n l e).1) = countNL l := by
  induction n with
  | zero => intro l e; rfl
  | succ n ih =>
    intro l e
    show countNL ((match findFrom ['/', '/'] l e with
      | none => (l, false)
      | some start =>
        match findFrom ['\n'] l (start + 2) with
        | none => (l, true)
        | some e2 => maskSingleF n (maskRangeAll l start e2) e2).1) = countNL l
    cases h1 : findFrom ['/', '/'] l e with
    | none => rfl
    | some start =>
      show countNL ((match findFrom ['\n'] l (start + 2) with
        | none => (l, true)
        | some e2 => maskSingleF n (maskRangeAll l start e2) e2).1) = countNL l
      cases h2 : findFrom ['\n'] l (start + 2) with
      | none => rfl
      | some e2 =>
        show countNL ((maskSingleF n (maskRangeAll l start e2) e2).1) = _
        rw [ih]
        apply countNL_maskRangeAll
        intro i hi1 hi2
        have hpfx := (findFrom_at _ _ _ _ h1).2
        obtain ⟨u, hu, hu2⟩ := isPrefixOf_cons_ex '/' ['/'] _ hpfx
        by_cases hi0 : i = start
        · subst hi0
          rw [getq_eq_head_drop, hu]
          simp
        · by_cases hi1' : i = start + 1
          · subst hi1'
            obtain ⟨u', hu', _⟩ := isPrefixOf_cons_ex '/' [] _ hu2
            rw [getq_eq_head_drop]
            have : l.drop (start + 1) = u := by
              have hd : (l.drop start).drop 1 = l.drop (start + 1) := by
                rw [List.drop_drop]
              rw [← hd, hu]
              rfl
            rw [this, hu']
            simp
          · have hge : start + 2 ≤ i := by omega
            have := findFrom_min _ _ _ _ h2 i hge hi2
            rw [getq_eq_head_drop]
            intro hcon
            rw [(singleton_pfx '\n' (l.drop i)).mpr hcon] at this
            cases this

theorem spacesNewline_count (l : List Char) :
    ∀ r, spacesNewline l = some r → countNL l = countNL r + 1 := by
  induction l with
  | nil => intro r h; cases h
  | cons c t ih =>
    intro r h
    simp only [spacesNewline] at h
    split at h
    · rename_i hc
      injection h with h'
      subst h'
      show (if c = '\n' then 1 else 0) + countNL t = countNL t + 1
      rw [if_pos hc, Nat.add_comm]
    · rename_i hc
      split at h
      · show (if c = '\n' then 1 else 0) + countNL t = countNL r + 1
        rw [if_neg hc, ih r h, Nat.zero_add]
      · cases h

theorem countNL_collapseF (n : Nat) : ∀ l, l.length ≤ n → countNL (collapseF n l) = countNL l := by
  induction n with
  | zero =>
    intro l hl
    have : l = [] := List.length_eq_zero.mp (Nat.le_zero.mp hl)
    subst this
    rfl
  | succ n ih =>
    intro l hl
    cases l with
    | nil => rfl
    | cons c r =>
      cases hsp : spacesNewline (c :: r) with
      | none =>
        rw [collapseF_succ_none n c r hsp]
        show (if c = '\n' then 1 else 0) + countNL (collapseF n r) = _
        rw [ih r (Nat.le_of_succ_le_succ hl)]
        rfl
      | some r' =>
        rw [collapseF_succ_some n c r r' hsp]
        have hlen := spacesNewline_len _ _ hsp
        show (if '\n' = '\n' then 1 else 0) + countNL (collapseF n r') = _
        rw [if_pos rfl, ih r' (by simp at hl hlen ⊢; omega), spacesNewline_count _ _ hsp,
          Nat.add_comm]

theorem rts_cons (c : Char) (r : List Char) :
    rts (c :: r) = if c = ' ' ∧ rts r = [] then [] else c :: rts r := by
  show (match rts r with
    | [] => if c = ' ' then [] else [c]
    | x :: xs => c :: x :: xs) = _
  by_cases h : c = ' ' ∧ rts r = []
  · rw [if_pos h, h.2]
    show (if c = ' ' then ([] : List Char) else [c]) = []
    rw [if_pos h.1]
  · rw [if_neg h]
    cases hr : rts r with
    | nil =>
      have hc : ¬ c = ' ' := fun hcon => h ⟨hcon, hr⟩
      show (if c = ' ' then ([] : List Char) else [c]) = [c]
      rw [if_neg hc]
    | cons x xs => rfl

theorem rts_get (r : List Char) :
    ∀ (j : Nat) (c : Char), r[j]? = some c → c ≠ ' ' → (rts r)[j]? = some c := by
  induction r with
  | nil => intro j c h _; simp at h
  | cons d r' ih =>
    intro j c h hc
    rw [rts_cons]
    cases j with
    | zero =>
      rw [List.getElem?_cons_zero] at h
      injection h with h'
      subst h'
      rw [if_neg (fun hcon : d = ' ' ∧ rts r' = [] => hc hcon.1)]
      rw [List.getElem?_cons_zero]
    | succ j' =>
      rw [List.getElem?_cons_succ] at h
      have hrec := ih j' c h hc
      have hne : rts r' ≠ [] := by
        intro hcon
        rw [hcon] at hrec
        simp at hrec
      rw [if_neg (fun hcon => hne hcon.2), List.getElem?_cons_succ]
      exact hrec

theorem rts_nil_iff (a : List Char) : rts a = [] ↔ ∀ c ∈ a, c = ' ' := by
  induction a with
  | nil => simp [show rts [] = ([] : List Char) from rfl]
  | cons c r ih =>
    rw [rts_cons]
    constructor
    · intro h
      by_cases hcon : c = ' ' ∧ rts r = []
      · intro d hd
        rcases List.mem_cons.mp hd with h1 | h1
        · rw [h1, hcon.1]
        · exact (ih.mp hcon.2) d h1
      · rw [if_neg hcon] at h
        cases h
    · intro h
      have hc : c = ' ' := h c (List.mem_cons_self c r)
      have hr : rts r = [] := ih.mpr fun d hd => h d (List.mem_cons_of_mem c hd)
      rw [if_pos ⟨hc, hr⟩]

theorem rts_mem (a : List Char) : ∀ c ∈ rts a, c ∈ a := by
  induction a with
  | nil => exact fun c hc => absurd hc (List.not_mem_nil c)
  | cons d r ih =>
    rw [rts_cons]
    by_cases hcon : d = ' ' ∧ rts r = []
    · rw [if_pos hcon]; simp
    · rw [if_neg hcon]
      intro c hc
      rcases List.mem_cons.mp hc with h1 | h1
      · rw [h1]; exact List.mem_cons_self d r
      · exact List.mem_cons_of_mem d (ih c h1)

theorem spacesNewline_all_sp (a : List Char) (r : List Char) (h : ∀ c ∈ a, c = ' ') :
    spacesNewline (a ++ '\n' :: r) = some r := by
  induction a with
  | nil => rw [List.nil_append, spacesNewline_nl]
  | cons c a' ih =>
    rw [List.cons_append, h c (List.mem_cons_self c a'), spacesNewline_space]
    exact ih fun d hd => h d (List.mem_cons_of_mem c hd)

theorem spacesNewline_not_all (a : List Char) (r : List Char) (hnl : '\n' ∉ a)
    (h : ¬ ∀ c ∈ a, c = ' ') : spacesNewline (a ++ '\n' :: r) = none := by
  induction a with
  | nil => exact absurd (fun c hc => absurd hc (List.not_mem_nil c)) h
  | cons c a' ih =>
    rw [List.cons_append]
    by_cases hc : c = ' '
    · subst hc
      rw [spacesNewline_space]
      refine ih (fun hcon => hnl (List.mem_cons_of_mem _ hcon)) ?_
      intro hcon
      exact h fun d hd => by
        rcases List.mem_cons.mp hd with h1 | h1
        · exact h1
        · exact hcon d h1
    · exact spacesNewline_none_head _ _ hc
        (fun hcon => hnl (hcon ▸ List.mem_cons_self c a'))

theorem collapseF_nil (n : Nat) : collapseF n [] = [] := by
  cases n <;> rfl

theorem collapseF_irrel (n : Nat) :
    ∀ n' l, l.length ≤ n → l.length ≤ n' → collapseF n l = collapseF n' l := by
  induction n with
  | zero =>
    intro n' l h _
    have : l = [] := List.length_eq_zero.mp (Nat.le_zero.mp h)
    subst this
    rw [collapseF_nil, collapseF_nil]
  | succ n ih =>
    intro n' l h h'
    cases l with
    | nil => rw [collapseF_nil, collapseF_nil]
    | cons c r =>
      cases n' with
      | zero => simp at h'
      | succ n2 =>
        cases hsp : spacesNewline (c :: r) with
        | none =>
          rw [collapseF_succ_none n c r hsp, collapseF_succ_none n2 c r hsp]
          rw [ih n2 r (Nat.le_of_succ_le_succ h) (Nat.le_of_succ_le_succ h')]
        | some r' =>
          rw [collapseF_succ_some n c r r' hsp, collapseF_succ_some n2 c r r' hsp]
          have hlen := spacesNewline_len _ _ hsp
          rw [ih n2 r' (by simp at hlen h ⊢; omega) (by simp at hlen h' ⊢; omega)]

theorem spacesNewline_no_nl (l : List Char) (h : '\n' ∉ l) : spacesNewline l = none := by
  induction l with
  | nil => rfl
  | cons c r ih =>
    by_cases hc : c = ' '
    · subst hc
      rw [spacesNewline_space]
      exact ih fun hcon => h (List.mem_cons_of_mem _ hcon)
    · exact spacesNewline_none_head _ _ hc
        (fun hcon => h (hcon ▸ List.mem_cons_self c r))

theorem collapseF_no_nl (n : Nat) : ∀ l, '\n' ∉ l → collapseF n l = l := by
  induction n with
  | zero => intro l _; rfl
  | succ n ih =>
    intro l h
    cases l with
    | nil => rfl
    | cons c r =>
      rw [collapseF_succ_none n c r (spacesNewline_no_nl _ h)]
      rw [ih r fun hcon => h (List.mem_cons_of_mem _ hcon)]

theorem collapseF_line (a : List Char) (hna : '\n' ∉ a) :
    ∀ n r, (a ++ '\n' :: r).length ≤ n →
      collapseF n (a ++ '\n' :: r) = rts a ++ '\n' :: collapseF (n - (a.length + 1)) r := by
  induction a with
  | nil =>
    intro n r hn
    rw [List.nil_append] at hn ⊢
    cases n with
    | zero => simp at hn
    | succ n2 =>
      rw [collapseF_succ_some n2 _ _ _ (spacesNewline_nl r)]
      rfl
  | cons c a' ih =>
    intro n r hn
    cases n with
    | zero => simp at hn
    | succ n2 =>
      have hna' : '\n' ∉ a' := fun hcon => hna (List.mem_cons_of_mem c hcon)
      rw [List.cons_append]
      by_cases hall : ∀ x ∈ c :: a', x = ' '
      · have hsp : spacesNewline ((c :: a') ++ '\n' :: r) = some r :=
          spacesNewline_all_sp _ _ hall
        rw [List.cons_append] at hsp
        rw [collapseF_succ_some n2 _ _ _ hsp]
        have h1 : rts (c :: a') = [] := (rts_nil_iff _).mpr hall
        rw [h1, List.nil_append]
        have hr1 : r.length ≤ n2 := by
          simp [List.length_append] at hn; omega
        have hr2 : r.length ≤ n2 + 1 - ((c :: a').length + 1) := by
          simp [List.length_append] at hn ⊢; omega
        rw [collapseF_irrel n2 _ r hr1 hr2]
      · have hsp : spacesNewline ((c :: a') ++ '\n' :: r) = none :=
          spacesNewline_not_all _ _ hna hall
        rw [List.cons_append] at hsp
        rw [collapseF_succ_none n2 _ _ hsp]
        rw [ih hna' n2 r (by simp [List.length_append] at hn ⊢; omega)]
        have harith : n2 - (a'.length + 1) = n2 + 1 - ((c :: a').length + 1) := by
          simp only [List.length_cons]
          omega
        rw [harith, rts_cons]
        by_cases hcsp : c = ' ' ∧ rts a' = []
        · exfalso
          apply hall
          intro x hx
          rcases List.mem_cons.mp hx with h1 | h1
          · rw [h1, hcsp.1]
          · exact (rts_nil_iff a').mp hcsp.2 x h1
        · rw [if_neg hcsp, List.cons_append]

theorem splitLines_ne_nil (l : List Char) : splitLines l ≠ [] := by
  cases l with
  | nil => simp [splitLines]
  | cons c r =>
    show (match splitLines r with
      | ln :: lns => if c = '\n' then [] :: ln :: lns else (c :: ln) :: lns
      | [] => [[c]]) ≠ []
    cases splitLines r with
    | nil => simp
    | cons ln lns =>
      show (if c = '\n' then [] :: ln :: lns else (c :: ln) :: lns) ≠ []
      by_cases hc : c = '\n'
      · rw [if_pos hc]; simp
      · rw [if_neg hc]; simp

theorem splitLines_sep (a : List Char) (hna : '\n' ∉ a) :
    ∀ r, splitLines (a ++ '\n' :: r) = a :: splitLines r := by
  induction a with
  | nil =>
    intro r
    rw [List.nil_append]
    show (match splitLines r with
      | ln :: lns => if ('\n' : Char) = '\n' then [] :: ln :: lns else ('\n' :: ln) :: lns
      | [] => [['\n']]) = [] :: splitLines r
    cases hs : splitLines r with
    | nil => exact absurd hs (splitLines_ne_nil r)
    | cons ln lns =>
      show (if ('\n' : Char) = '\n' then [] :: ln :: lns else ('\n' :: ln) :: lns) =
        [] :: ln :: lns
      rw [if_pos rfl]
  | cons c a' ih =>
    intro r
    have hna' : '\n' ∉ a' := fun hcon => hna (List.mem_cons_of_mem c hcon)
    have hc : c ≠ '\n' := fun hcon => hna (hcon ▸ List.mem_cons_self c a')
    rw [List.cons_append]
    show (match splitLines (a' ++ '\n' :: r) with
      | ln :: lns => if c = '\n' then [] :: ln :: lns else (c :: ln) :: lns
      | [] => [[c]]) = (c :: a') :: splitLines r
    rw [ih hna' r]
    show (if c = '\n' then [] :: a' :: splitLines r else (c :: a') :: splitLines r) =
      (c :: a') :: splitLines r
    rw [if_neg hc]

theorem splitLines_no_nl (l : List Char) (h : '\n' ∉ l) : splitLines l = [l] := by
  induction l with
  | nil => rfl
  | cons c r ih =>
    have hc : c ≠ '\n' := fun hcon => h (hcon ▸ List.mem_cons_self c r)
    show (match splitLines r with
      | ln :: lns => if c = '\n' then [] :: ln :: lns else (c :: ln) :: lns
      | [] => [[c]]) = [c :: r]
    rw [ih fun hcon => h (List.mem_cons_of_mem c hcon)]
    show (if c = '\n' then [] :: r :: [] else (c :: r) :: []) = [c :: r]
    rw [if_neg hc]

theorem nl_split (l : List Char) (h : '\n' ∈ l) :
    ∃ a r, l = a ++ '\n' :: r ∧ '\n' ∉ a := by
  induction l with
  | nil => cases h
  | cons c t ih =>
    by_cases hc : c = '\n'
    · exact ⟨[], t, by rw [hc, List.nil_append], List.not_mem_nil _⟩
    · have h' : '\n' ∈ t := by
        rcases List.mem_cons.mp h with h1 | h1
        · exact absurd h1.symm hc
        · exact h1
      obtain ⟨a, r, he, hnaa⟩ := ih h'
      refine ⟨c :: a, r, by rw [he, List.cons_append], ?_⟩
      intro hcon
      rcases List.mem_cons.mp hcon with h1 | h1
      · exact hc h1.symm
      · exact hnaa h1

theorem collapse_getLC (l : List Char) :
    ∀ (n li co : Nat) (c : Char), l.length ≤ n →
      getLC l li co = some c → c ≠ ' ' → getLC (collapseF n l) li co = some c := by
  intro n li co c hn hg hc
  by_cases hnl : '\n' ∈ l
  · obtain ⟨a, r, heq, hna⟩ := nl_split l hnl
    subst heq
    rw [collapseF_line a hna n r hn]
    have hrsts : '\n' ∉ rts a := fun hcon => hna (rts_mem a '\n' hcon)
    have hsplit2 := splitLines_sep (rts a) hrsts (collapseF (n - (a.length + 1)) r)
    have hsplit1 := splitLines_sep a hna r
    cases li with
    | zero =>
      unfold getLC at hg ⊢
      rw [hsplit1] at hg
      rw [hsplit2]
      simp only [List.getElem?_cons_zero] at hg ⊢
      have hg' : a[co]? = some c := hg
      show (rts a)[co]? = some c
      exact rts_get a co c hg' hc
    | succ li' =>
      unfold getLC at hg ⊢
      rw [hsplit1] at hg
      rw [hsplit2]
      simp only [List.getElem?_cons_succ] at hg ⊢
      have hg' : getLC r li' co = some c := hg
      have hbound : r.length ≤ n - (a.length + 1) := by
        simp [List.length_append] at hn; omega
      exact collapse_getLC r (n - (a.length + 1)) li' co c hbound hg' hc
  · rw [collapseF_no_nl n l hnl]
    exact hg
termination_by l.length
decreasing_by
  rw [heq, List.length_append, List.length_cons]
  omega

theorem commentMasked_count (l : List Char) : countNL (commentMasked l) = countNL l := by
  simp only [commentMasked]
  split
  · exact countNL_maskMultiF _ l 0
  · rw [countNL_maskSingleF, countNL_maskMultiF]

theorem rc_cases (l : List Char) :
    (remove_comments l).1 = commentMasked l ∨
    (remove_comments l).1 = collapseF ((commentMasked l).length + 1) (commentMasked l) := by
  simp only [remove_comments, commentMasked]
  split
  · left; rfl
  · split
    · left; rfl
    · right; rfl

theorem countNL_remove_comments (l : List Char) :
    countNL (remove_comments l).1 = countNL l := by
  rcases rc_cases l with h | h
  · rw [h, commentMasked_count]
  · rw [h, countNL_collapseF _ _ (Nat.le_succ _), commentMasked_count]

theorem findFrom_len_bound (p l : List Char) (i j : Nat) (hp : 0 < p.length)
    (h : findFrom p l i = some j) : j + p.length ≤ l.length := by
  have hpfx := (findFrom_at _ _ _ _ h).2
  have hle := (List.isPrefixOf_iff_prefix.mp hpfx).length_le
  rw [List.length_drop] at hle
  omega

theorem maskMultiO_eq : ∀ n l e, l.length < n + e → 0 < n →
    maskMultiO n l e = some (maskMultiF n l e) := by
  intro n
  induction n with
  | zero => intro l e _ h0; exact absurd h0 (by omega)
  | succ n ih =>
    intro l e hb _
    show (match findFrom ['/', '*'] l e with
      | none => some (l, false)
      | some start =>
        match findFrom ['*', '/'] l (start + 2) with
        | none => some (l, true)
        | some e2 => maskMultiO n (maskRangeKeepNL l start (e2 + 2)) e2) =
      some (maskMultiF (n + 1) l e)
    have hF : maskMultiF (n + 1) l e = (match findFrom ['/', '*'] l e with
        | none => (l, false)
        | some start =>
          match findFrom ['*', '/'] l (start + 2) with
          | none => (l, true)
          | some e2 => maskMultiF n (maskRangeKeepNL l start (e2 + 2)) e2) := rfl
    rw [hF]
    cases h1 : findFrom ['/', '*'] l e with
    | none => rfl
    | some start =>
      show (match findFrom ['*', '/'] l (start + 2) with
        | none => some (l, true)
        | some e2 => maskMultiO n (maskRangeKeepNL l start (e2 + 2)) e2) =
        some (match findFrom ['*', '/'] l (start + 2) with
        | none => (l, true)
        | some e2 => maskMultiF n (maskRangeKeepNL l start (e2 + 2)) e2)
      cases h2 : findFrom ['*', '/'] l (start + 2) with
      | none => rfl
      | some e2 =>
        have ha1 := (findFrom_at _ _ _ _ h1).1
        have ha2 := (findFrom_at _ _ _ _ h2).1
        have hlb := findFrom_len_bound _ _ _ _ (by decide) h1
        simp only [List.length_cons, List.length_nil] at hlb
        show maskMultiO n (maskRangeKeepNL l start (e2 + 2)) e2 =
          some (maskMultiF n (maskRangeKeepNL l start (e2 + 2)) e2)
        apply ih
        · rw [maskRangeKeepNL_len]; omega
        · omega

theorem maskSingleO_eq : ∀ n l e, l.length < n + e → 0 < n →
    maskSingleO n l e = some (maskSingleF n l e) := by
  intro n
  induction n with
  | zero => intro l e _ h0; exact absurd h0 (by omega)
  | succ n ih =>
    intro l e hb _
    show (match findFrom ['/', '/'] l e with
      | none => some (l, false)
      | some start =>
        match findFrom ['\n'] l (start + 2) with
        | none => some (l, true)
        | some e2 => maskSingleO n (maskRangeAll l start e2) e2) =
      some (maskSingleF (n + 1) l e)
    have hF : maskSingleF (n + 1) l e = (match findFrom ['/', '/'] l e with
        | none => (l, false)
        | some start =>
          match findFrom ['\n'] l (start + 2) with
          | none => (l, true)
          | some e2 => maskSingleF n (maskRangeAll l start e2) e2) := rfl
    rw [hF]
    cases h1 : findFrom ['/', '/'] l e with
    | none => rfl
    | some start =>
      show (match findFrom ['\n'] l (start + 2) with
        | none => some (l, true)
        | some e2 => maskSingleO n (maskRangeAll l start e2) e2) =
        some (match findFrom ['\n'] l (start + 2) with
        | none => (l, true)
        | some e2 => maskSingleF n (maskRangeAll l start e2) e2)
      cases h2 : findFrom ['\n'] l (start + 2) with
      | none => rfl
      | some e2 =>
        have ha1 := (findFrom_at _ _ _ _ h1).1
        have ha2 := (findFrom_at _ _ _ _ h2).1
        have hlb := findFrom_len_bound _ _ _ _ (by decide) h1
        simp only [List.length_cons, List.length_nil] at hlb
        show maskSingleO n (maskRangeAll l start e2) e2 =
          some (maskSingleF n (maskRangeAll l start e2) e2)
        apply ih
        · rw [maskRangeAll_len]; omega
        · omega

theorem collapseO_eq : ∀ n l, l.length < n → collapseO n l = some (collapseF n l) := by
  intro n
  induction n with
  | zero => intro l h; omega
  | succ n ih =>
    intro l hb
    cases l with
    | nil => rfl
    | cons c r =>
      show (match spacesNewline (c :: r) with
        | some r' => (collapseO n r').map (fun t => '\n' :: t)
        | none => (collapseO n r).map (fun t => c :: t)) = some (collapseF (n + 1) (c :: r))
      cases hsp : spacesNewline (c :: r) with
      | some r' =>
        have hlen := spacesNewline_len _ _ hsp
        show (collapseO n r').map (fun t => '\n' :: t) = some (collapseF (n + 1) (c :: r))
        rw [ih r' (by simp at hlen hb ⊢; omega), collapseF_succ_some n c r r' hsp]
        rfl
      | none =>
        show (collapseO n r).map (fun t => c :: t) = some (collapseF (n + 1) (c :: r))
        rw [ih r (by simp at hb ⊢; omega), collapseF_succ_none n c r hsp]
        rfl

theorem replaceAllO_eq (m : List Char → Option (List Char × List Char))
    (hm : ∀ c r rep rest, m (c :: r) = some (rep, rest) → rest.length ≤ r.length) :
    ∀ n l, l.length < n → replaceAllO m n l = some (replaceAllF m n l) := by
  intro n
  induction n with
  | zero => intro l h; omega
  | succ n ih =>
    intro l hb
    cases l with
    | nil => rfl
    | cons c r =>
      show (match m (c :: r) with
        | some (rep, rest) => (replaceAllO m n rest).map (fun t => rep ++ t)
        | none => (replaceAllO m n r).map (fun t => c :: t)) =
        some (replaceAllF m (n + 1) (c :: r))
      cases hmm : m (c :: r) with
      | some pr =>
        obtain ⟨rep, rest⟩ := pr
        have hlen := hm c r rep rest hmm
        show (replaceAllO m n rest).map (fun t => rep ++ t) =
          some (replaceAllF m (n + 1) (c :: r))
        rw [ih rest (by simp at hb ⊢; omega), replaceAllF_cons_some n hmm]
        rfl
      | none =>
        show (replaceAllO m n r).map (fun t => c :: t) =
          some (replaceAllF m (n + 1) (c :: r))
        rw [ih r (by simp at hb ⊢; omega), replaceAllF_cons_none n hmm]
        rfl

theorem tgO_eq : ∀ n l, l.length < n → tgO n l = some (tgF n l) := by
  intro n
  induction n with
  | zero => intro l h; omega
  | succ n ih =>
    intro l hb
    show (match searchM matchSharedAt l with
      | none => some []
      | some (_, v, rest) => (tgO n rest).map (fun vs => v :: vs)) = some (tgF (n + 1) l)
    cases hs : searchM matchSharedAt l with
    | none =>
      show some [] = some (tgF (n + 1) l)
      rw [tgF_succ_none n l hs]
    | some pr =>
      obtain ⟨p, v, rest⟩ := pr
      show (tgO n rest).map (fun vs => v :: vs) = some (tgF (n + 1) l)
      have hse := searchM_some _ _ _ _ hs
      obtain ⟨c2, r2, heq, hsfx⟩ := matchSharedAt_some _ _ _ hse
      have hlen : rest.length < l.length := by
        have h1 : rest.length ≤ r2.length := hsfx.length_le
        have h2 : (l.drop p).length = (c2 :: r2).length := by rw [heq]
        rw [List.length_drop, List.length_cons] at h2
        omega
      rw [ih rest (by omega), tgF_succ_some n l p v rest hs]
      rfl

theorem matLintO_eq : ∀ n l, l.length < n → matLintO n l = some (matLintF n l) := by
  intro n
  induction n with
  | zero => intro l h; omega
  | succ n ih =>
    intro l hb
    show (match searchM matchMatAt l with
      | none => some []
      | some (p, rest) => (matLintO n rest).map (fun ds => ⟨l, matchedOf l p rest, msgMat⟩ :: ds)) =
      some (matLintF (n + 1) l)
    cases hs : searchM matchMatAt l with
    | none =>
      show some [] = some (matLintF (n + 1) l)
      rw [matLintF_succ_none n l hs]
    | some pr =>
      obtain ⟨p, rest⟩ := pr
      show (matLintO n rest).map
        (fun ds => (⟨l, matchedOf l p rest, msgMat⟩ : Diag) :: ds) = some (matLintF (n + 1) l)
      have hse := searchM_some _ _ _ _ hs
      obtain ⟨c2, r2, heq, hsfx⟩ := matchMatAt_some _ _ hse
      have hlen : rest.length < l.length := by
        have h1 : rest.length ≤ r2.length := hsfx.length_le
        have h2 : (l.drop p).length = (c2 :: r2).length := by rw [heq]
        rw [List.length_drop, List.length_cons] at h2
        omega
      rw [ih rest (by omega), matLintF_succ_some n l p rest hs]
      rfl

theorem arrLintO_eq : ∀ n l, l.length < n → arrLintO n l = some (arrLintF n l) := by
  intro n
  induction n with
  | zero => intro l h; omega
  | succ n ih =>
    intro l hb
    show (match searchM matchArrAt l with
      | none => some []
      | some (p, _, rest) => (arrLintO n rest).map (fun ds => ⟨l, matchedOf l p rest, msgArr⟩ :: ds)) =
      some (arrLintF (n + 1) l)
    cases hs : searchM matchArrAt l with
    | none =>
      show some [] = some (arrLintF (n + 1) l)
      rw [arrLintF_succ_none n l hs]
    | some pr =>
      obtain ⟨p, ty, rest⟩ := pr
      show (arrLintO n rest).map
        (fun ds => (⟨l, matchedOf l p rest, msgArr⟩ : Diag) :: ds) = some (arrLintF (n + 1) l)
      have hse := searchM_some _ _ _ _ hs
      obtain ⟨c2, r2, heq, hsfx⟩ := matchArrAt_some _ _ _ hse
      have hlen : rest.length < l.length := by
        have h1 : rest.length ≤ r2.length := hsfx.length_le
        have h2 : (l.drop p).length = (c2 :: r2).length := by rw [heq]
        rw [List.length_drop, List.length_cons] at h2
        omega
      rw [ih rest (by omega), arrLintF_succ_some n l p ty rest hs]
      rfl

theorem matchDirAt_shrink : ∀ c r rep rest,
    matchDirAt (c :: r) = some (rep, rest) → rest.length ≤ r.length := by
  intro c r rep rest h
  obtain ⟨c2, r2, heq, hsfx, _⟩ := matchDirAt_some _ _ _ h
  injection heq with h1 h2
  subst h2
  exact hsfx.length_le

theorem matchDecoAt_shrink : ∀ c r rep rest,
    matchDecoAt (c :: r) = some (rep, rest) → rest.length ≤ r.length := by
  intro c r rep rest h
  obtain ⟨c2, r2, heq, hsfx⟩ := matchDecoAt_some _ _ _ h
  injection heq with h1 h2
  subst h2
  exact hsfx.length_le

theorem matchArrRepAt_shrink : ∀ c r rep rest,
    matchArrRepAt (c :: r) = some (rep, rest) → rest.length ≤ r.length := by
  intro c r rep rest h
  cases hm : matchArrAt (c :: r) with
  | none => rw [matchArrRepAt, hm] at h; exact absurd h (by simp)
  | some pr =>
    obtain ⟨ty, rst⟩ := pr
    rw [matchArrRepAt, hm] at h
    simp only [Option.map_some'] at h
    injection h with h2
    injection h2 with hrep hrest
    obtain ⟨c2, r2, heq, hsfx⟩ := matchArrAt_some _ _ _ hm
    injection heq with h3 h4
    subst h4
    subst hrest
    exact hsfx.length_le

theorem remove_commentsO_eq (l : List Char) :
    remove_commentsO l = some (remove_comments l) := by
  have h1 := maskMultiO_eq (l.length + 1) l 0 (by omega) (by omega)
  have h2 := maskSingleO_eq ((maskMultiF (l.length + 1) l 0).1.length + 1)
      (maskMultiF (l.length + 1) l 0).1 0 (by omega) (by omega)
  have h3 := collapseO_eq
      ((maskSingleF ((maskMultiF (l.length + 1) l 0).1.length + 1)
        (maskMultiF (l.length + 1) l 0).1 0).1.length + 1)
      (maskSingleF ((maskMultiF (l.length + 1) l 0).1.length + 1)
        (maskMultiF (l.length + 1) l 0).1 0).1
      (by omega)
  by_cases hc1 : (maskMultiF (l.length + 1) l 0).2 = true
  · simp [remove_commentsO, remove_comments, h1, hc1, Option.bind_eq_bind]
  · by_cases hc2 : (maskSingleF ((maskMultiF (l.length + 1) l 0).1.length + 1)
        (maskMultiF (l.length + 1) l 0).1 0).2 = true
    · simp [remove_commentsO, remove_comments, h1, h2, hc1, hc2, Option.bind_eq_bind]
    · simp [remove_commentsO, remove_comments, h1, h2, h3, hc1, hc2, Option.bind_eq_bind]

end Lemmas

/-- C1 (counterexample): for the fresh-instance input
`shared float foo;\nshared float bar[10];\n` the codegen suffix defines
`MSL_SHARED_VARS_PASS` as `( foo,bar)` — with a space after the opening
parenthesis — so the claimed text `(foo,bar)` appears nowhere in the
output, refuting the claim that the defined text is exactly `(foo,bar)`. -/
theorem c1_counterexample :
    (process false false false ("shared float foo;\nshared float bar[10];\n".data) []).1 =
      ("shared float _shared_sta foo _shared_end;\nshared float _shared_sta bar _shared_end[10];\n#undef MSL_SHARED_VARS_ARGS\n#undef MSL_SHARED_VARS_ASSIGN\n#undef MSL_SHARED_VARS_DECLARE\n#undef MSL_SHARED_VARS_PASS\n#define MSL_SHARED_VARS_ARGS  threadgroup float(&_foo),threadgroup float(&_bar)[10]\n#define MSL_SHARED_VARS_ASSIGN :foo(_foo),bar(_bar)\n#define MSL_SHARED_VARS_DECLARE threadgroup float foo;threadgroup float bar[10];\n#define MSL_SHARED_VARS_PASS ( foo,bar)\n".data) ∧
    findSub ("MSL_SHARED_VARS_PASS (foo,bar)".data)
      ("shared float _shared_sta foo _shared_end;\nshared float _shared_sta bar _shared_end[10];\n#undef MSL_SHARED_VARS_ARGS\n#undef MSL_SHARED_VARS_ASSIGN\n#undef MSL_SHARED_VARS_DECLARE\n#undef MSL_SHARED_VARS_PASS\n#define MSL_SHARED_VARS_ARGS  threadgroup float(&_foo),threadgroup float(&_bar)[10]\n#define MSL_SHARED_VARS_ASSIGN :foo(_foo),bar(_bar)\n#define MSL_SHARED_VARS_DECLARE threadgroup float foo;threadgroup float bar[10];\n#define MSL_SHARED_VARS_PASS ( foo,bar)\n".data) = none := by
  constructor
  · decide
  · decide

/-- C1 (amended): processing `shared float foo;` followed by
`shared float bar[10];` on a fresh instance appends a suffix whose
`MSL_SHARED_VARS_ARGS` contains
`\ threadgroup float(&_foo),threadgroup float(&_bar)[10]`, whose
`MSL_SHARED_VARS_ASSIGN` contains `:foo(_foo),bar(_bar)`, whose
`MSL_SHARED_VARS_DECLARE` contains
`threadgroup float foo;threadgroup float bar[10];`, and whose
`MSL_SHARED_VARS_PASS` defines the text `( foo,bar)` (a space after the
opening parenthesis, not exactly `(foo,bar)`). -/
theorem c1_suffix_generation :
    (process false false false ("shared float foo;\nshared float bar[10];\n".data) []).1 =
      ("shared float _shared_sta foo _shared_end;\nshared float _shared_sta bar _shared_end[10];\n#undef MSL_SHARED_VARS_ARGS\n#undef MSL_SHARED_VARS_ASSIGN\n#undef MSL_SHARED_VARS_DECLARE\n#undef MSL_SHARED_VARS_PASS\n#define MSL_SHARED_VARS_ARGS  threadgroup float(&_foo),threadgroup float(&_bar)[10]\n#define MSL_SHARED_VARS_ASSIGN :foo(_foo),bar(_bar)\n#define MSL_SHARED_VARS_DECLARE threadgroup float foo;threadgroup float bar[10];\n#define MSL_SHARED_VARS_PASS ( foo,bar)\n".data) ∧
    (findSub ("#define MSL_SHARED_VARS_ARGS  threadgroup float(&_foo),threadgroup float(&_bar)[10]\n".data)
      ("#undef MSL_SHARED_VARS_ARGS\n#undef MSL_SHARED_VARS_ASSIGN\n#undef MSL_SHARED_VARS_DECLARE\n#undef MSL_SHARED_VARS_PASS\n#define MSL_SHARED_VARS_ARGS  threadgroup float(&_foo),threadgroup float(&_bar)[10]\n#define MSL_SHARED_VARS_ASSIGN :foo(_foo),bar(_bar)\n#define MSL_SHARED_VARS_DECLARE threadgroup float foo;threadgroup float bar[10];\n#define MSL_SHARED_VARS_PASS ( foo,bar)\n".data)).isSome = true ∧
    suffixGen (varsOf ("shared float foo;\nshared float bar[10];\n".data)) =
      ("#undef MSL_SHARED_VARS_ARGS\n#undef MSL_SHARED_VARS_ASSIGN\n#undef MSL_SHARED_VARS_DECLARE\n#undef MSL_SHARED_VARS_PASS\n#define MSL_SHARED_VARS_ARGS  threadgroup float(&_foo),threadgroup float(&_bar)[10]\n#define MSL_SHARED_VARS_ASSIGN :foo(_foo),bar(_bar)\n#define MSL_SHARED_VARS_DECLARE threadgroup float foo;threadgroup float bar[10];\n#define MSL_SHARED_VARS_PASS ( foo,bar)\n".data) := by
  refine ⟨by decide, by decide, by decide⟩

/-- C3 (counterexample): on input `a \nb` (no comments at all, so every
character is a non-comment character) the trailing-space collapse of
`remove_comments` deletes the space at line 0, column 1: the output is
`a\nb` and holds no character at that position, refuting the claim that
every non-comment character keeps its line and column. -/
theorem c3_counterexample :
    remove_comments ("a \nb".data) = (("a\nb".data), []) ∧
    commentMasked ("a \nb".data) = ("a \nb".data) ∧
    getLC ("a \nb".data) 0 1 = some ' ' ∧
    getLC (remove_comments ("a \nb".data)).1 0 1 = none := by
  refine ⟨by decide, by decide, by decide, by decide⟩

/-- C4 (counterexample): on input ` mat4(a) mat4(b)` the matrix linter
reports twice in one pass; the second invocation of the sink receives as
first argument ` mat4(b)` — the suffix after the first match — and not the
whole comment-stripped source (which equals the input here), refuting the
claim that every invocation receives the full current text. -/
theorem c4_counterexample :
    ((process false false false (" mat4(a) mat4(b)".data) []).2.1)[1]? =
      some ⟨" mat4(b)".data, " mat4(b)".data, msgMat⟩ ∧
    (remove_comments (" mat4(a) mat4(b)".data)).1 = (" mat4(a) mat4(b)".data) ∧
    (" mat4(b)".data) ≠ (" mat4(a) mat4(b)".data) := by
  refine ⟨by decide, by decide, by decide⟩

/-- C5: the full-control entry point and the convenience entry point
return the same transformed text on a fresh instance for every input and
every value of the (ignored) feature flags; only diagnostic delivery
differs. -/
theorem c5_entry_points_agree (s : List Char) (b1 b2 b3 : Bool) :
    (process b1 b2 b3 s []).1 = processConv s :=
  rfl

/-- C6: for the input `shared float a; shared int b[4];` the collector
produces `[{float, a, ""}, {int, b, "[4]"}]` in that order, and the
generated suffix (shown literally) lists the entry for `a` before the
entry for `b` in each of the four macro definitions. -/
theorem c6_order_invariant :
    varsOf ("shared float a; shared int b[4];".data) =
      [⟨"float".data, "a".data, []⟩, ⟨"int".data, "b".data, "[4]".data⟩] ∧
    suffixGen (varsOf ("shared float a; shared int b[4];".data)) =
      ("#undef MSL_SHARED_VARS_ARGS\n#undef MSL_SHARED_VARS_ASSIGN\n#undef MSL_SHARED_VARS_DECLARE\n#undef MSL_SHARED_VARS_PASS\n#define MSL_SHARED_VARS_ARGS  threadgroup float(&_a),threadgroup int(&_b)[4]\n#define MSL_SHARED_VARS_ASSIGN :a(_a),b(_b)\n#define MSL_SHARED_VARS_DECLARE threadgroup float a;threadgroup int b[4];\n#define MSL_SHARED_VARS_PASS ( a,b)\n".data) := by
  refine ⟨by decide, by decide⟩

/-- C7 (counterexample): the input `mat4(other_mat)` contains the
substring `mat4(other_mat)` but no whitespace before it, so the lint regex
(which requires `\s+` before the constructor name) never matches and
`process` delivers no diagnostic at all, refuting the claim that every
input containing that substring produces at least one diagnostic. -/
theorem c7_counterexample :
    (process false false false ("mat4(other_mat)".data) []).2.1 = [] := by
  decide

/-- C9: the decorator pass rewrites `out float var[2]` to
`out float _out_sta var _out_end[2]` — start marker between the
qualifier/type pair and the identifier, end marker after the identifier
and before the array brackets, both parameterized by the qualifier. -/
theorem c9_decorator_injection :
    argument_decorator_macro_injection ("out float var[2]".data) =
      ("out float _out_sta var _out_end[2]".data) := by
  decide

/-- C2: the shared-variable accumulator is instance-scoped: a second
`process` call on the same instance leaves the accumulator holding the
declarations of the first input followed by those of the second, and its
output's codegen suffix is generated from that concatenated list — each
macro payload listing the first call's entries before the second call's. -/
theorem c2_accumulator_instance_scoped (b1 b2 b3 b4 b5 b6 : Bool) (s1 s2 : List Char) :
    (process b4 b5 b6 s2 (process b1 b2 b3 s1 []).2.2).2.2 = varsOf s1 ++ varsOf s2 ∧
    (process b4 b5 b6 s2 (process b1 b2 b3 s1 []).2.2).1 =
      bodyOf s2 ++ suffixGen (varsOf s1 ++ varsOf s2) ∧
    sharedDeclare (varsOf s1 ++ varsOf s2) =
      sharedDeclare (varsOf s1) ++ sharedDeclare (varsOf s2) ∧
    (varsOf s1 ≠ [] →
      sharedArgs true (varsOf s1 ++ varsOf s2) =
        sharedArgs true (varsOf s1) ++ sharedArgs false (varsOf s2) ∧
      sharedAssign true (varsOf s1 ++ varsOf s2) =
        sharedAssign true (varsOf s1) ++ sharedAssign false (varsOf s2) ∧
      sharedPass true (varsOf s1 ++ varsOf s2) =
        sharedPass true (varsOf s1) ++ sharedPass false (varsOf s2)) := by
  refine ⟨?_, ?_, sharedDeclare_append _ _, fun hu => ⟨sharedArgs_append _ _ hu,
    sharedAssign_append _ _ hu, sharedPass_append _ _ hu⟩⟩
  · simp [process, varsOf]
  · simp [process, varsOf, bodyOf]

/-- C2 (witness): the instance-scoped accumulation theorem applied to the
concrete inputs `shared float a;` and `shared int b[2];`. -/
theorem c2_witness :
    varsOf ("shared float a;".data) ≠ [] ∧
    sharedArgs true (varsOf ("shared float a;".data) ++ varsOf ("shared int b[2];".data)) =
      sharedArgs true (varsOf ("shared float a;".data)) ++
        sharedArgs false (varsOf ("shared int b[2];".data)) :=
  ⟨by decide,
    ((c2_accumulator_instance_scoped false false false false false false
      ("shared float a;".data) ("shared int b[2];".data)).2.2.2 (by decide)).1⟩


/-- C8: the directive-masking pass is idempotent — for every input text a
second application yields no further change — and in particular
`#include "x"` becomes `//include "x"`, which a second pass leaves
unchanged. -/
theorem c8_directive_masking_idempotent :
    (∀ l : List Char, preprocessor_directive_mutation (preprocessor_directive_mutation l) =
      preprocessor_directive_mutation l) ∧
    preprocessor_directive_mutation ("#include \"x\"".data) = ("//include \"x\"".data) ∧
    preprocessor_directive_mutation ("//include \"x\"".data) = ("//include \"x\"".data) := by
  refine ⟨fun l => ?_, by decide, by decide⟩
  exact replaceAllF_dir_id _ _ (dirMut_noMatch (l.length + 1) l (Nat.le_succ _))


/-- C4 (amended): every sink invocation during one `process` call receives
`(context, matchedOrEmpty, message)`: the `remove_comments` reports carry
the original input and an empty match; each linter report carries, as
first argument, a suffix of the comment-stripped source — the whole
stripped source for the pass's first report, the suffix after the previous
match for later ones — together with the matched substring and the fixed
message. -/
theorem c4_sink_arguments (b1 b2 b3 : Bool) (s : List Char) (st : List SharedVar) :
    (process b1 b2 b3 s st).2.1 =
      (remove_comments s).2 ++ matrix_constructor_linting (remove_comments s).1 ++
        array_constructor_linting (remove_comments s).1 ∧
    (∀ d ∈ (remove_comments s).2, d.ctx = s ∧ d.matched = []) ∧
    (∀ d ∈ matrix_constructor_linting (remove_comments s).1,
      d.ctx <:+ (remove_comments s).1 ∧ d.msg = msgMat) ∧
    (∀ d ∈ array_constructor_linting (remove_comments s).1,
      d.ctx <:+ (remove_comments s).1 ∧ d.msg = msgArr) ∧
    (∀ d : Diag, (matrix_constructor_linting (remove_comments s).1).head? = some d →
      d.ctx = (remove_comments s).1) ∧
    (∀ d : Diag, (array_constructor_linting (remove_comments s).1).head? = some d →
      d.ctx = (remove_comments s).1) := by
  refine ⟨rfl, remove_comments_diag s, ?_, ?_,
    fun d => matLint_head _ d, fun d => arrLint_head _ d⟩
  · intro d hd; exact matLintF_mem _ _ d hd
  · intro d hd; exact arrLintF_mem _ _ d hd

/-- C4 (witness): the amended sink-argument theorem applied to the second
matrix-linter diagnostic of the input ` mat4(a) mat4(b)`. -/
theorem c4_witness :
    (⟨" mat4(b)".data, " mat4(b)".data, msgMat⟩ : Diag) ∈
      matrix_constructor_linting (remove_comments (" mat4(a) mat4(b)".data)).1 ∧
    (⟨" mat4(b)".data, " mat4(b)".data, msgMat⟩ : Diag).ctx <:+
      (remove_comments (" mat4(a) mat4(b)".data)).1 :=
  ⟨by decide,
    (((c4_sink_arguments false false false (" mat4(a) mat4(b)".data) []).2.2.1) _
      (by decide)).1⟩


/-- C7 (witness): the amended matrix-lint theorem applied to the concrete
comment-free input `x mat4(other_mat);`. -/
theorem c7_witness :
    findFrom ['/', '*'] (("x".data) ++ (" mat4(other_mat)".data) ++ (";".data)) 0 = none ∧
    (∃ d ∈ (process false false false
        (("x".data) ++ (" mat4(other_mat)".data) ++ (";".data)) []).2.1,
      d.msg = msgMat) :=
  ⟨by decide,
    (c7_matrix_lint_reports false false false [] ("x".data) (";".data)
      (by decide) (by decide)).1⟩

/-- C3 (amended): comment stripping preserves the total newline count for
every input, and every non-comment input character other than a space
(a character unchanged by the comment-masking phase) occupies the same
line and column in the output as in the input.  (Spaces are excluded
because the trailing-space collapse deletes space runs that sit
immediately before a newline — see the counterexample.) -/
theorem c3_comment_stripping (l : List Char) :
    countNL (remove_comments l).1 = countNL l ∧
    (∀ (li co : Nat) (c : Char), getLC l li co = some c →
      getLC (commentMasked l) li co = some c → c ≠ ' ' →
      getLC ((remove_comments l).1) li co = some c) := by
  refine ⟨countNL_remove_comments l, ?_⟩
  intro li co c _ hm hc
  rcases rc_cases l with h | h
  · rw [h]; exact hm
  · rw [h]; exact collapse_getLC (commentMasked l) _ li co c (Nat.le_succ _) hm hc

/-- C3 (witness): the amended comment-stripping theorem applied to the
input `ab/*x*/c\nd` at the non-comment character `b` (line 0, column 1). -/
theorem c3_witness :
    getLC ("ab/*x*/c\nd".data) 0 1 = some 'b' ∧
    getLC (commentMasked ("ab/*x*/c\nd".data)) 0 1 = some 'b' ∧
    getLC ((remove_comments ("ab/*x*/c\nd".data)).1) 0 1 = some 'b' :=
  ⟨by decide, by decide,
    (c3_comment_stripping ("ab/*x*/c\nd".data)).2 0 1 'b' (by decide) (by decide) (by decide)⟩

/-- C10: the fuel budget `length + 1` of every loop of `process` is always
sufficient — the fuel-failing mirror `processO`, run with exactly the same
budgets, succeeds on every input and returns precisely what `process`
returns (text, diagnostics and updated shared-variable state), for any
flags and any starting state.  Hence every loop of the embedding (and of
the C++ passes it mirrors, whose iterations strictly consume their input)
terminates on all inputs. -/
theorem c10_process_total (b1 b2 b3 : Bool) (s : List Char) (st : List SharedVar) :
    processO s st = some (process b1 b2 b3 s st) := by
  unfold processO
  rw [remove_commentsO_eq s]
  simp only [Option.bind_eq_bind, Option.some_bind]
  rw [tgO_eq _ _ (by omega)]
  simp only [Option.bind_eq_bind, Option.some_bind]
  rw [matLintO_eq _ _ (by omega)]
  simp only [Option.bind_eq_bind, Option.some_bind]
  rw [arrLintO_eq _ _ (by omega)]
  simp only [Option.bind_eq_bind, Option.some_bind]
  rw [replaceAllO_eq matchDirAt matchDirAt_shrink _ _ (by omega)]
  simp only [Option.bind_eq_bind, Option.some_bind]
  rw [replaceAllO_eq matchDecoAt matchDecoAt_shrink _ _ (by omega)]
  simp only [Option.bind_eq_bind, Option.some_bind]
  rw [replaceAllO_eq matchArrRepAt matchArrRepAt_shrink _ _ (by omega)]
  simp only [Option.bind_eq_bind, Option.some_bind]
  rfl

end GlslPre
